import Mathlib

/-!
Shallow embedding of the `property_bag` package
(`property_bag.py`, `indentation_tree.py`, `property_bag_parser.py`).

Bags are modelled as immutable values.  Python's insertion-ordered `dict`
is modelled as an association list where assigning to an existing key
replaces the value in place (keeping the key's position) and assigning a
fresh key appends at the end.
-/

/-- The hierarchical property-bag node from `property_bag.py`: a name, a
scalar value, an ordered list of base bags and an insertion-ordered map of
named children. -/
inductive PropertyBag where
  | mk (name value : String) (bases : List PropertyBag)
       (children : List (String × PropertyBag))

namespace PropertyBag

def name : PropertyBag → String
  | .mk n _ _ _ => n

def value : PropertyBag → String
  | .mk _ v _ _ => v

def bases : PropertyBag → List PropertyBag
  | .mk _ _ bs _ => bs

def children : PropertyBag → List (String × PropertyBag)
  | .mk _ _ _ cs => cs

end PropertyBag

/-- Lookup in the insertion-ordered dictionary model (first occurrence of
the key wins, as in a Python `dict` where keys are unique). -/
def dictLookup (m : List (String × PropertyBag)) (k : String) :
    Option PropertyBag :=
  match m with
  | [] => none
  | (k', v) :: rest => if k' = k then some v else dictLookup rest k

/-- Assignment `m[k] = v` on the insertion-ordered dictionary model:
replace in place if the key exists, append otherwise. -/
def dictInsert (m : List (String × PropertyBag)) (k : String)
    (v : PropertyBag) : List (String × PropertyBag) :=
  match m with
  | [] => [(k, v)]
  | (k', v') :: rest =>
      if k' = k then (k, v) :: rest else (k', v') :: dictInsert rest k v

/-- Insert every pair of `xs` into `acc` in order (the merge loops of
`flatten_properties`). -/
def dinsertAll (acc : List (String × PropertyBag))
    (xs : List (String × PropertyBag)) : List (String × PropertyBag) :=
  match xs with
  | [] => acc
  | (k, v) :: rest => dinsertAll (dictInsert acc k v) rest

mutual

/-- The `PropertyBag.flatten_properties`: start from the bases' flattened maps
merged in declared order (later bases overwrite earlier entries), then
overlay this node's direct children. -/
def PropertyBag.flatten_properties : PropertyBag → List (String × PropertyBag)
  | .mk _ _ bs cs => dinsertAll (PropertyBag.flattenBases bs []) cs

/-- The `for base_prop in self._bases` merge loop of `flatten_properties`,
with the accumulated map threaded through. -/
def PropertyBag.flattenBases :
    List PropertyBag → List (String × PropertyBag) → List (String × PropertyBag)
  | [], acc => acc
  | b :: rest, acc =>
      PropertyBag.flattenBases rest (dinsertAll acc b.flatten_properties)

end

/-- The body of `PropertyBag.__contains__`: membership in the flattened
map.  This is the fresh (cache-miss) evaluation only; the
`lru_cache(maxsize=16)` decorator wrapped around it in the source is
modelled separately, by `cachedContains` on value snapshots and by
`cachedContainsH` on the live heap. -/
def PropertyBag.contains (b : PropertyBag) (item : String) : Bool :=
  (dictLookup b.flatten_properties item).isSome

mutual

/-- The body of `PropertyBag.__getitem__`: direct children first, then the
bases in reverse declaration order, recursing into the first base that
contains the item.  This is the fresh (cache-miss) evaluation with every
inner query fresh as well; the `lru_cache(maxsize=32)` decorator of the
source is modelled separately, by `cachedGetitem` on value snapshots and
by `cachedGetitemH` on the live heap. -/
def PropertyBag.getitem : PropertyBag → String → Option PropertyBag
  | .mk _ _ bs cs, item =>
      match dictLookup cs item with
      | some c => some c
      | none => PropertyBag.getitemBases bs item

/-- The `for base in self._bases[::-1]` loop of `__getitem__`: the list is
scanned from its last element towards its first, stopping at the first
base whose flattened view contains the item. -/
def PropertyBag.getitemBases : List PropertyBag → String → Option PropertyBag
  | [], _ => none
  | b :: rest, item =>
      match PropertyBag.getitemBases rest item with
      | some r => some r
      | none => if b.contains item then b.getitem item else none

end

/-- The `PropertyBag.add`: `self._children[prop.name] = prop`. -/
def PropertyBag.add (b : PropertyBag) (c : PropertyBag) : PropertyBag :=
  .mk b.name b.value b.bases (dictInsert b.children c.name c)

/-- The `PropertyBag.count`: the number of entries of the flattened view. -/
def PropertyBag.count (b : PropertyBag) : Nat :=
  b.flatten_properties.length

/-- The shape-tree node from `indentation_tree.py`: an indent (the
sentinel root uses `-1`), the line's text with indentation stripped, and
the nested lines in order. -/
inductive IndentationTree where
  | mk (indent : Int) (text : String) (children : List IndentationTree)

namespace IndentationTree

def indent : IndentationTree → Int
  | .mk i _ _ => i

def text : IndentationTree → String
  | .mk _ t _ => t

def children : IndentationTree → List IndentationTree
  | .mk _ _ cs => cs

end IndentationTree

/-- The whitespace class of the indent regex `^(?P<indent>\s*)(?P<text>.*)$`
(ASCII whitespace; the rare non-ASCII whitespace code points are not
modelled). -/
def wsChar (c : Char) : Bool :=
  c = ' ' || c = '\t' || c = '\n' || c = '\r' || c = '\x0b' || c = '\x0c'

/-- Python's `str.strip()` on the whitespace class above (the `.strip()`
calls of the parser). -/
def pyStrip (s : String) : String :=
  String.mk (((s.data.dropWhile wsChar).reverse.dropWhile wsChar).reverse)

/-- A still-open line on the parse stack of `IndentationTree.parse`:
its raw indent, its text, and the children attached to it so far. -/
structure Frame where
  indent : Int
  text : String
  children : List IndentationTree

def Frame.toTree (f : Frame) : IndentationTree :=
  .mk f.indent f.text f.children

def Frame.addChild (f : Frame) (t : IndentationTree) : Frame :=
  ⟨f.indent, f.text, f.children ++ [t]⟩

/-- The `while stack[-1].indent >= indent: stack.pop()` loop.  The stack is
kept top-first (`f` is the top, `rest` the remainder).  In the source a
line is appended to its parent's children when pushed and the parent is
mutated in place; in this value model the finished node is attached to the
next frame when popped, which builds the same tree.  `none` models the
`stack[-1]` access failing because the stack was emptied. -/
def popGE (i : Int) : Frame → List Frame → Option (List Frame)
  | f, rest =>
      if i ≤ f.indent then
        match rest with
        | [] => none
        | g :: rest' => popGE i (g.addChild f.toTree) rest'
      else some (f :: rest)

/-- Matching a line against the indent regex
`^(?P<indent>\s*)(?P<text>.*)$`.  Since `.` does not match a newline and
`$` matches only at the end of the string or just before a final newline,
the match succeeds exactly when every newline of the line lies inside the
leading whitespace run or is the line's final character; the indent is
then the length of the leading whitespace run and the text the remainder
without a final newline.  `none` models `regex.match` returning `None`
(on which the source crashes with a `TypeError` at `matches['indent']`). -/
def indentMatch (line : String) : Option (Int × String) :=
  let rest := line.data.dropWhile wsChar
  match rest.dropWhile (fun c => c ≠ '\n') with
  | [] =>
      some (((line.data.takeWhile wsChar).length : Int),
            String.mk (rest.takeWhile (fun c => c ≠ '\n')))
  | ['\n'] =>
      some (((line.data.takeWhile wsChar).length : Int),
            String.mk (rest.takeWhile (fun c => c ≠ '\n')))
  | _ => none

/-- One iteration of the line loop of `IndentationTree.parse`: split the
line by the indent regex (failing where the source raises because the
regex returned `None`), pop to the nearest strictly shallower open line,
push the new node. -/
def stepLine (stack : List Frame) (line : String) : Option (List Frame) :=
  match indentMatch line with
  | none => none
  | some (ind, txt) =>
      match stack with
      | [] => none
      | f :: rest =>
          match popGE ind f rest with
          | none => none
          | some stack' => some (⟨ind, txt, []⟩ :: stack')

def runLines : List String → List Frame → Option (List Frame)
  | [], st => some st
  | l :: ls, st =>
      match stepLine st l with
      | none => none
      | some st' => runLines ls st'

/-- Close every remaining open line, attaching each to the frame below it;
the bottom frame (the sentinel root) becomes the finished tree. -/
def finalizeStack : Frame → List Frame → IndentationTree
  | f, [] => f.toTree
  | f, g :: rest => finalizeStack (g.addChild f.toTree) rest

mutual

/-- The `IndentationTree.normalize_indentation`: overwrite every indent with
the canonical depth, children one deeper than their parent. -/
def IndentationTree.normalize : IndentationTree → Int → IndentationTree
  | .mk _ t cs, cur => .mk cur t (IndentationTree.normalizeList cs (cur + 1))

def IndentationTree.normalizeList :
    List IndentationTree → Int → List IndentationTree
  | [], _ => []
  | t :: ts, cur =>
      IndentationTree.normalize t cur :: IndentationTree.normalizeList ts cur

end

/-- The `IndentationTree.parse`: fold the lines over a stack seeded with the
sentinel root of indent `-1`, then normalize the depths from `-1`.
`none` models a crash of the stack accesses (which the safety claim shows
cannot happen). -/
def IndentationTree.parse (lines : List String) : Option IndentationTree :=
  match runLines lines [⟨-1, "", []⟩] with
  | none => none
  | some [] => none
  | some (f :: rest) =>
      some ((finalizeStack f rest).normalize (-1))

/-! ## The line grammar of `property_bag_parser.py`

`LINE_REGEX_PATTERN` is
`^(?P<abstract>::)?(?P<name>..*?)((?P<equals>=)(?P<value>..*?)?|(::(?P<inherits>.*?))*|)$`.
Worked out against the backtracking semantics of the `regex` module, a
(non-empty) line is matched as follows: a leading `::` is taken as the
abstract marker whenever at least one character remains after it; the lazy
`name` group then grows until the remainder of the line is empty, starts
with `=` (the equals/value branch; the lazy optional `value` group is the
rest of the line, unmatched when empty) or starts with `::` (the inherits
branch, whose repeated captures split the remainder on `::`). -/

/-- The result of matching a line against `LINE_REGEX_PATTERN`. -/
structure LineMatch where
  isAbstract : Bool
  rawName : String
  hasEquals : Bool
  valueCap : Option String
  inherits : List String

/-- Grow the lazy `name` group: stop before `=` or `::`, otherwise consume
the character into the name. -/
def nameSplit : List Char → List Char × List Char
  | [] => ([], [])
  | '=' :: rest => ([], '=' :: rest)
  | ':' :: ':' :: rest => ([], ':' :: ':' :: rest)
  | c :: rest =>
      let (n, u) := nameSplit rest
      (c :: n, u)

/-- Split the tail of the inherits branch at each `::` delimiter,
leftmost first: the repeated lazy `inherits` captures of the regex. -/
def splitInherits (acc : List Char) : List Char → List String
  | [] => [String.mk acc.reverse]
  | ':' :: ':' :: rest => String.mk acc.reverse :: splitInherits [] rest
  | c :: rest => splitInherits (c :: acc) rest

/-- Match the part of the line after the optional abstract marker (`c` is
its first character: the `name` group takes at least one character). -/
def matchRest (isAbs : Bool) (c : Char) (rest : List Char) :
    Option LineMatch :=
  let (nm, u) := nameSplit rest
  let name := String.mk (c :: nm)
  match u with
  | [] => some ⟨isAbs, name, false, none, []⟩
  | '=' :: v =>
      some ⟨isAbs, name, true,
            if v.isEmpty then none else some (String.mk v), []⟩
  | ':' :: ':' :: t => some ⟨isAbs, name, false, none, splitInherits [] t⟩
  | _ => none

/-- Match a full line against `LINE_REGEX_PATTERN`.  The empty line does
not match (the `name` group needs at least one character); every other
line matches. -/
def lineMatch (s : String) : Option LineMatch :=
  match s.data with
  | [] => none
  | ':' :: ':' :: c :: rest => matchRest true c rest
  | c :: rest => matchRest false c rest

/-! ## The bag parser (`PropertyBagParser._parse_tree`)

The parser threads two stacks (both kept innermost-first here, so
`parents[::-1]`/`abstract_props[::-1]` iteration becomes a head-first
scan) and a list of recorded warnings.  Bags are values: the bag added to
its parent before the recursive descent is a snapshot, and the parent's
entry is refreshed with the finished bag when the child's subtree has been
parsed, mirroring the in-place mutation of the source. -/

/-- Parser state: the concrete ancestor stack, the abstract holder stack
(one holder per nesting level) and the warnings recorded so far. -/
structure PState where
  parents : List PropertyBag
  abstracts : List PropertyBag
  warnings : List String

/-- The `for parent in parents[::-1]: if base_name in parent: ... break`
scan: the first (innermost-first) stack entry whose flattened view
contains the name. -/
def firstContaining : List PropertyBag → String → Option PropertyBag
  | [], _ => none
  | p :: rest, n => if p.contains n then some p else firstContaining rest n

/-- Resolve one inheritance clause: search the concrete stack first; if
that yields nothing, search the abstract stack the same way.  Stated over
snapshot values with every membership test computed fresh; the
as-decorated resolution over live objects, where a membership test may be
answered by a stale `lru_cache` entry, is `resolveBaseC`. -/
def resolveBase (parents abstracts : List PropertyBag) (n : String) :
    Option PropertyBag :=
  let concrete :=
    match firstContaining parents n with
    | some p => p.getitem n
    | none => none
  match concrete with
  | some bp => some bp
  | none =>
      match firstContaining abstracts n with
      | some p => p.getitem n
      | none => none

/-- Resolve a list of inheritance clauses in order; an unresolved name is
omitted from the base list and recorded as a warning. -/
def resolveBases (parents abstracts : List PropertyBag) :
    List String → List PropertyBag × List String
  | [] => ([], [])
  | n :: rest =>
      let rws := resolveBases parents abstracts rest
      match resolveBase parents abstracts n with
      | some b => (b :: rws.1, rws.2)
      | none => (rws.1, n :: rws.2)

/-- The multi-line value loop: join the nested lines' texts with single
spaces (no separator after an empty accumulated value). -/
def joinTexts : List IndentationTree → String → String
  | [], v => v
  | t :: ts, v => joinTexts ts (if v ≠ "" then v ++ " " ++ t.text else v ++ t.text)

def freshHolder : PropertyBag := .mk "abstract" "" [] []

/-- The `inherit_name = inherit.strip() or name` step: an inheritance
clause whose text strips to nothing uses the declaration's own name. -/
def inheritName (declName raw : String) : String :=
  if pyStrip raw = "" then declName else pyStrip raw

mutual

/-- One iteration of the `for child in tree.children` loop of
`_parse_tree`, for the node `child` (here `node`).  `none` models the
crashes of the source (an unmatchable empty line, or a stack access on an
empty stack).  Stated over value snapshots with all queries computed
fresh; the faithful parse over live aliased objects with both `lru_cache`
tables threaded through is `processNodeC`. -/
def processNode (node : IndentationTree) (st : PState) : Option PState :=
  match node with
  | .mk _ txt nodeChildren =>
      match st.parents with
      | [] => none
      | parent :: ps =>
          match lineMatch txt with
          | none => none
          | some m =>
              let name :=
                if pyStrip m.rawName = "" then toString parent.count
                else pyStrip m.rawName
              if m.hasEquals then
                match m.valueCap with
                | some v =>
                    -- fully specified text property; children ignored
                    some ⟨parent.add (.mk name (pyStrip v) [] []) :: ps,
                          st.abstracts, st.warnings⟩
                | none =>
                    -- multi-line text property
                    some ⟨parent.add (.mk name (joinTexts nodeChildren "") [] []) :: ps,
                          st.abstracts, st.warnings⟩
              else
                -- collection property
                let inames := m.inherits.map (inheritName name)
                let rws := resolveBases st.parents st.abstracts inames
                let ws := rws.2
                let prop : PropertyBag := .mk name "" rws.1 []
                if m.isAbstract then
                  match st.abstracts with
                  | [] => none
                  | hold :: hs =>
                      match processList nodeChildren
                          ⟨prop :: parent :: ps,
                           freshHolder :: hold.add prop :: hs,
                           st.warnings ++ ws⟩ with
                      | none => none
                      | some st2 =>
                          match st2.parents, st2.abstracts with
                          | fp :: ps2, _ :: hold2 :: hs2 =>
                              some ⟨ps2, hold2.add fp :: hs2, st2.warnings⟩
                          | _, _ => none
                else
                  match processList nodeChildren
                      ⟨prop :: parent.add prop :: ps,
                       freshHolder :: st.abstracts,
                       st.warnings ++ ws⟩ with
                  | none => none
                  | some st2 =>
                      match st2.parents, st2.abstracts with
                      | fp :: q :: qs, _ :: as2 =>
                          some ⟨q.add fp :: qs, as2, st2.warnings⟩
                      | _, _ => none

/-- The `for child in tree.children` loop itself. -/
def processList : List IndentationTree → PState → Option PState
  | [], st => some st
  | n :: rest, st =>
      match processNode n st with
      | none => none
      | some st' => processList rest st'

end

/-- The `PropertyBagParser.parse`: parse a shape tree into a root bag (paired
here with the recorded warnings). -/
def PropertyBagParser.parse (tree : IndentationTree) :
    Option (PropertyBag × List String) :=
  match processList tree.children
      ⟨[.mk "root" "" [] []], [freshHolder], []⟩ with
  | some st =>
      match st.parents with
      | root :: _ => some (root, st.warnings)
      | [] => none
  | none => none

/-- The line-to-bag pipeline of the claims: shape tree, then bag parser. -/
def parseLines (lines : List String) : Option (PropertyBag × List String) :=
  match IndentationTree.parse lines with
  | none => none
  | some t => PropertyBagParser.parse t

/-- Follow a path of child names through `__getitem__`. -/
def childAt (b : PropertyBag) : List String → Option PropertyBag
  | [] => some b
  | n :: rest =>
      match b.getitem n with
      | some c => childAt c rest
      | none => none

/-! ## Auxiliary notions used by the statements -/

/-- Last-occurrence lookup in an association list: the value written last
for the key, as a sequence of dictionary assignments would leave it. -/
def lastLookup : List (String × PropertyBag) → String → Option PropertyBag
  | [], _ => none
  | (k', v) :: rest, k =>
      match lastLookup rest k with
      | some r => some r
      | none => if k' = k then some v else none

/-- The keys of the association list are pairwise distinct (true of every
map produced by Python `dict` operations). -/
def keysNodup : List (String × PropertyBag) → Bool
  | [] => true
  | (k, _) :: rest => (dictLookup rest k).isNone && keysNodup rest

/-- Lookup through a base list with the override rule of the flattened
view: the last base (in declaration order) whose flattened map has the
name wins. -/
def basesFlatLookup : List PropertyBag → String → Option PropertyBag
  | [], _ => none
  | b :: rest, k =>
      match basesFlatLookup rest k with
      | some r => some r
      | none => dictLookup b.flatten_properties k

/-- Modelled from the spec's words, for comparison with the code's
`resolveBase` (claim C2): search a stack innermost-first checking only
each entry's *direct children*. -/
def firstChildMatch : List PropertyBag → String → Option PropertyBag
  | [], _ => none
  | p :: rest, n =>
      match dictLookup p.children n with
      | some c => some c
      | none => firstChildMatch rest n

/-- Modelled from the spec's words, for comparison with the code's
`resolveBase` (claim C2): concrete ancestors' direct children first, then
abstract holders' direct children. -/
def resolveBaseByChildren (parents abstracts : List PropertyBag)
    (n : String) : Option PropertyBag :=
  match firstChildMatch parents n with
  | some c => some c
  | none => firstChildMatch abstracts n

/-! ## The `lru_cache` model (claim C10)

`__contains__` carries `@lru_cache(maxsize=16)` and `__getitem__`
`@lru_cache(maxsize=32)`.  The cache is modelled for a single bag: an
ordered list of key/result pairs, most recently used first; a hit moves
the entry to the front, a miss computes from the *current* bag, inserts at
the front and drops the least recently used entry beyond the capacity.
`add` mutates the bag and leaves the cache untouched, as in the source. -/

structure CachedBag where
  bag : PropertyBag
  containsCache : List (String × Bool)
  getitemCache : List (String × Option PropertyBag)

/-- Find a cache entry. -/
def cacheFind {α : Type} : List (String × α) → String → Option α
  | [], _ => none
  | (k', v) :: rest, k => if k' = k then some v else cacheFind rest k

/-- Remove a cache entry. -/
def cacheErase {α : Type} : List (String × α) → String → List (String × α)
  | [], _ => []
  | (k', v) :: rest, k =>
      if k' = k then rest else (k', v) :: cacheErase rest k

/-- The `bag in`/`__contains__` through its `lru_cache(maxsize=16)`. -/
def cachedContains (s : CachedBag) (k : String) : Bool × CachedBag :=
  match cacheFind s.containsCache k with
  | some v => (v, { s with containsCache := (k, v) :: cacheErase s.containsCache k })
  | none =>
      let v := s.bag.contains k
      (v, { s with containsCache := ((k, v) :: s.containsCache).take 16 })

/-- The `bag[...]`/`__getitem__` through its `lru_cache(maxsize=32)`. -/
def cachedGetitem (s : CachedBag) (k : String) :
    Option PropertyBag × CachedBag :=
  match cacheFind s.getitemCache k with
  | some v => (v, { s with getitemCache := (k, v) :: cacheErase s.getitemCache k })
  | none =>
      let v := s.bag.getitem k
      (v, { s with getitemCache := ((k, v) :: s.getitemCache).take 32 })

/-- The `add` on the cached bag: mutates the children, never the caches. -/
def cachedAdd (s : CachedBag) (c : PropertyBag) : CachedBag :=
  { s with bag := s.bag.add c }

/-- Run a sequence of `__contains__` queries, threading the cache. -/
def runQueries (s : CachedBag) : List String → CachedBag
  | [] => s
  | k :: ks => runQueries (cachedContains s k).2 ks

/-! ## Invariants of the shape-tree stack (claims C7 and C9) -/

/-- The indents of the open frames, top first. -/
def stackIndents (fs : List Frame) : List Int :=
  fs.map Frame.indent

/-- The bottom frame of the stack is the sentinel root of indent `-1`. -/
def sentinelAtBottom (fs : List Frame) : Prop :=
  (stackIndents fs).getLast? = some (-1)

/-- The open indents strictly decrease from the top of the stack to the
sentinel. -/
def strictDesc : List Int → Bool
  | [] => true
  | [_] => true
  | a :: b :: r => (b < a : Bool) && strictDesc (b :: r)

mutual

/-- Every child's recorded depth is its parent's depth plus one. -/
def depthOK : IndentationTree → Bool
  | .mk i _ cs => depthListOK cs (i + 1)

def depthListOK : List IndentationTree → Int → Bool
  | [], _ => true
  | t :: ts, d => (t.indent == d) && depthOK t && depthListOK ts d

end

/-! ## Concrete inputs used by the claims -/

/-- The bag `a` of the multiple-inheritance example (children
`foo="from a"`, `bar="from a"`). -/
def exA : PropertyBag :=
  .mk "a" "" []
    [("foo", .mk "foo" "from a" [] []), ("bar", .mk "bar" "from a" [] [])]

/-- The bag `b` of the multiple-inheritance example (children
`foo="from b"`, `baz="from b"`). -/
def exB : PropertyBag :=
  .mk "b" "" []
    [("foo", .mk "foo" "from b" [] []), ("baz", .mk "baz" "from b" [] [])]

/-- The bag `c` of the multiple-inheritance example: bases `[a, b]` and
child `sprang="from c"`. -/
def exC : PropertyBag :=
  .mk "c" "" [exA, exB] [("sprang", .mk "sprang" "from c" [] [])]

/-- Input whose inner inheritance clause (`c :: foo`) resolves through an
ancestor's *inherited* (flattened) view rather than its direct children. -/
def c2lines : List String :=
  ["a", "  foo", "    marker = hi", "b :: a", "  c :: foo"]

/-- The bag `foo` (with child `marker = hi`) of `c2lines` once parsed. -/
def c2foo : PropertyBag :=
  .mk "foo" "" [] [("marker", .mk "marker" "hi" [] [])]

/-- The concrete ancestor stack (innermost first) at the moment the clause
`c :: foo` of `c2lines` is resolved: the in-progress `b` (bases `[a]`, no
children yet) on top of the root holding `a` and the snapshot of `b`. -/
def c2parents : List PropertyBag :=
  [.mk "b" "" [.mk "a" "" [] [("foo", c2foo)]] [],
   .mk "root" "" []
     [("a", .mk "a" "" [] [("foo", c2foo)]),
      ("b", .mk "b" "" [.mk "a" "" [] [("foo", c2foo)]] [])]]

/-- The abstract holder stack at the same moment (both levels empty). -/
def c2abstracts : List PropertyBag :=
  [freshHolder, freshHolder]

/-- The self-named-inheritance input from the repository's test suite. -/
def c3lines : List String :=
  ["foo", "  bar = in base", "a", "  foo ::", "    bar = overridden",
   "b", "  foo ::"]

/-- The abstract-declaration input: `a` and `b` are abstract, `c` inherits
from both. -/
def c5lines : List String :=
  [":: a", "  foo = from a", "  bar = from a",
   ":: b", "  foo = from b", "  baz = from b",
   "c :: a :: b", "  sprang = from c"]

/-- A multi-line value whose second fragment is nested deeper than the
first. -/
def c6deepLines : List String := ["m =", "  x", "    y"]

/-- The multi-line value example of the claim. -/
def c6flatLines : List String := ["m =", "  x", "  y"]

/-- An inheritance clause naming a base that exists nowhere. -/
def c8lines : List String := ["a", "b :: missing", "  c = 1"]

/-- Sixteen distinct names, enough to fill the `maxsize=16` cache of
`__contains__` and evict its least recently used entry. -/
def c10keys : List String :=
  ["k1", "k2", "k3", "k4", "k5", "k6", "k7", "k8", "k9", "k10", "k11",
   "k12", "k13", "k14", "k15", "k16"]

/-! ### Literal results of the concrete parses

The staged intermediate states let the concrete parses be checked by
small definitional steps (one top-level declaration at a time). -/

/-- The `a` of `c2lines` once parsed. -/
def c2a : PropertyBag := .mk "a" "" [] [("foo", c2foo)]

/-- The `c` of `c2lines` once parsed: its base is the `foo` bag resolved
through `b`'s flattened view. -/
def c2c : PropertyBag := .mk "c" "" [c2foo] []

/-- The `b` of `c2lines` once parsed. -/
def c2b : PropertyBag := .mk "b" "" [c2a] [("c", c2c)]

/-- Root of `c2lines` after its first top-level declaration. -/
def c2r1 : PropertyBag := .mk "root" "" [] [("a", c2a)]

/-- Root of `c2lines` once parsed. -/
def c2root : PropertyBag := .mk "root" "" [] [("a", c2a), ("b", c2b)]

/-- The outermost `foo` of `c3lines` once parsed. -/
def c3fooBase : PropertyBag :=
  .mk "foo" "" [] [("bar", .mk "bar" "in base" [] [])]

/-- The `a`'s `foo ::` of `c3lines`: based on the ancestor `foo`, its own
`bar` overridden. -/
def c3aFoo : PropertyBag :=
  .mk "foo" "" [c3fooBase] [("bar", .mk "bar" "overridden" [] [])]

/-- The `b`'s `foo ::` of `c3lines`: based on the ancestor `foo`. -/
def c3bFoo : PropertyBag := .mk "foo" "" [c3fooBase] []

/-- Root of `c3lines` after its first top-level declaration. -/
def c3r1 : PropertyBag := .mk "root" "" [] [("foo", c3fooBase)]

/-- Root of `c3lines` after its second top-level declaration. -/
def c3r2 : PropertyBag :=
  .mk "root" "" []
    [("foo", c3fooBase), ("a", .mk "a" "" [] [("foo", c3aFoo)])]

/-- Root of `c3lines` once parsed. -/
def c3root : PropertyBag :=
  .mk "root" "" []
    [("foo", c3fooBase), ("a", .mk "a" "" [] [("foo", c3aFoo)]),
     ("b", .mk "b" "" [] [("foo", c3bFoo)])]

/-- Abstract holder of `c5lines` after `:: a`. -/
def c5h1 : PropertyBag := .mk "abstract" "" [] [("a", exA)]

/-- Abstract holder of `c5lines` after `:: a` and `:: b`. -/
def c5h2 : PropertyBag := .mk "abstract" "" [] [("a", exA), ("b", exB)]

/-- Root of `c5lines` once parsed: only the concrete `c`. -/
def c5root : PropertyBag := .mk "root" "" [] [("c", exC)]

/-- Root of `c6deepLines` once parsed: the deeper-nested `y` is dropped. -/
def c6deepRoot : PropertyBag := .mk "root" "" [] [("m", .mk "m" "x" [] [])]

/-- Root of `c6flatLines` once parsed. -/
def c6flatRoot : PropertyBag :=
  .mk "root" "" [] [("m", .mk "m" "x y" [] [])]

/-- Root of `c8lines` after its first top-level declaration. -/
def c8r1 : PropertyBag := .mk "root" "" [] [("a", .mk "a" "" [] [])]

/-- Root of `c8lines` once parsed: `b` has no bases, `c = 1` inside it. -/
def c8root : PropertyBag :=
  .mk "root" "" []
    [("a", .mk "a" "" [] []),
     ("b", .mk "b" "" [] [("c", .mk "c" "1" [] [])])]


/-! ## The live-object model

The source decorates `__contains__` and `__getitem__` with `@lru_cache`
(maxsize 16 and 32), keyed on `(self, item)` where `self` compares by
object identity, and no mutation ever invalidates an entry.  To follow
the decorated methods through a parse, bags are modelled a second time as
live objects: a heap of records indexed by allocation order (a bag's
reference is its index; `add` mutates the record in place, so aliasing
behaves as in the source) together with the two cache tables, most
recently used first.  The recursions through the base chain take explicit
fuel; every call below passes ample fuel, since bases always precede
their users in allocation order. -/

/-- A bag as a live object: the fields of `PropertyBag`, with other bags
referred to by heap references. -/
structure HBag where
  name : String
  value : String
  bases : List Nat
  children : List (String × Nat)

/-- The world of a run: the allocated bags (a bag's reference is its
index) and the two `lru_cache` tables of `__contains__` and
`__getitem__`, most recently used first. -/
structure HState where
  heap : List HBag
  cCache : List ((Nat × String) × Bool)
  gCache : List ((Nat × String) × Option Nat)

/-- Lookup in the reference-valued dictionary model. -/
def dictLookupN (m : List (String × Nat)) (k : String) : Option Nat :=
  match m with
  | [] => none
  | (k', v) :: rest => if k' = k then some v else dictLookupN rest k

/-- Assignment in the reference-valued dictionary model. -/
def dictInsertN (m : List (String × Nat)) (k : String) (v : Nat) :
    List (String × Nat) :=
  match m with
  | [] => [(k, v)]
  | (k', v') :: rest =>
      if k' = k then (k, v) :: rest else (k', v') :: dictInsertN rest k v

/-- Insert every pair of `xs` into `acc` in order. -/
def dinsertAllN (acc xs : List (String × Nat)) : List (String × Nat) :=
  match acc, xs with
  | acc, [] => acc
  | acc, (k, v) :: rest => dinsertAllN (dictInsertN acc k v) rest

/-- Find an entry of an `lru_cache` table. -/
def cacheFindP {α : Type} :
    List ((Nat × String) × α) → Nat × String → Option α
  | [], _ => none
  | (k', v) :: rest, k => if k' = k then some v else cacheFindP rest k

/-- Remove an entry of an `lru_cache` table. -/
def cacheEraseP {α : Type} :
    List ((Nat × String) × α) → Nat × String → List ((Nat × String) × α)
  | [], _ => []
  | (k', v) :: rest, k =>
      if k' = k then rest else (k', v) :: cacheEraseP rest k

/-- The `flatten_properties` computation on the heap (uncached in the
source too): merge the bases' flattened maps in declared order, then
overlay the children; recursion through the base chain consumes fuel. -/
def flattenH (heap : List HBag) : Nat → Nat → List (String × Nat)
  | 0, _ => []
  | Nat.succ fuel, r =>
      match heap[r]? with
      | none => []
      | some b =>
          dinsertAllN
            (b.bases.foldl
              (fun acc br => dinsertAllN acc (flattenH heap fuel br)) [])
            b.children

/-- What `__contains__` computes on a cache miss: membership in the
current flattened view. -/
def containsFreshH (heap : List HBag) (fuel r : Nat) (item : String) :
    Bool :=
  (dictLookupN (flattenH heap fuel r) item).isSome

/-- The decorated `__contains__`: the cached answer (moved to the front)
if this `(object, name)` pair was queried before — mutation never
invalidates it — else the fresh membership, inserted at the front with
the least recently used entry beyond 16 dropped. -/
def cachedContainsH (fuel : Nat) (st : HState) (r : Nat) (item : String) :
    Bool × HState :=
  match cacheFindP st.cCache (r, item) with
  | some v =>
      (v, { st with cCache := ((r, item), v) :: cacheEraseP st.cCache (r, item) })
  | none =>
      let v := containsFreshH st.heap fuel r item
      (v, { st with cCache := (((r, item), v) :: st.cCache).take 16 })

mutual

/-- The decorated `__getitem__`: the cached answer if present, else the
miss computation — direct children first, then the bases in reverse
declaration order through each base's (cached) membership test and
lookup — inserted with eviction beyond 32 entries. -/
def cachedGetitemH : Nat → HState → Nat → String → Option Nat × HState
  | 0, st, _, _ => (none, st)
  | Nat.succ fuel, st, r, item =>
      match cacheFindP st.gCache (r, item) with
      | some v =>
          (v, { st with
                gCache := ((r, item), v) :: cacheEraseP st.gCache (r, item) })
      | none =>
          let rv :=
            match st.heap[r]? with
            | none => ((none : Option Nat), st)
            | some b =>
                match dictLookupN b.children item with
                | some c => (some c, st)
                | none => getitemBasesH fuel st b.bases.reverse item
          (rv.1, { rv.2 with gCache := (((r, item), rv.1) :: rv.2.gCache).take 32 })

/-- The `for base in self._bases[::-1]` loop of the decorated
`__getitem__` (the list arrives already reversed): `if item in base:
return base[item]`, both through the caches. -/
def getitemBasesH : Nat → HState → List Nat → String → Option Nat × HState
  | 0, st, _, _ => (none, st)
  | Nat.succ _, st, [], _ => (none, st)
  | Nat.succ fuel, st, br :: rest, item =>
      let cv := cachedContainsH (Nat.succ fuel) st br item
      if cv.1 then cachedGetitemH fuel cv.2 br item
      else getitemBasesH fuel cv.2 rest item

end

/-- The `for parent in parents[::-1]` resolution scan over a stack of
live bags (innermost first), each step through the cached membership
test; the first bag whose cached answer is true supplies the (cached)
lookup and the scan stops. -/
def resolveScanH (fuel : Nat) : HState → List Nat → String → Option Nat × HState
  | st, [], _ => (none, st)
  | st, p :: rest, n =>
      let cv := cachedContainsH fuel st p n
      if cv.1 then cachedGetitemH fuel cv.2 p n
      else resolveScanH fuel cv.2 rest n

/-- Resolve one inheritance clause over the live stacks: the concrete
scan first, the abstract scan only if it produced nothing. -/
def resolveBaseC (fuel : Nat) (st : HState) (parents abstracts : List Nat)
    (n : String) : Option Nat × HState :=
  let c := resolveScanH fuel st parents n
  match c.1 with
  | some bp => (some bp, c.2)
  | none => resolveScanH fuel c.2 abstracts n

/-- Resolve a clause list left to right (cache effects accumulate in
order); unresolved names are skipped and recorded. -/
def resolveBasesC (fuel : Nat) (parents abstracts : List Nat) :
    HState → List String → List Nat × List String × HState
  | st, [] => ([], [], st)
  | st, n :: rest =>
      let r := resolveBaseC fuel st parents abstracts n
      let tail := resolveBasesC fuel parents abstracts r.2 rest
      match r.1 with
      | some b => (b :: tail.1, tail.2.1, tail.2.2)
      | none => (tail.1, n :: tail.2.1, tail.2.2)

/-- Allocate a new bag: its reference is the current heap length. -/
def allocH (st : HState) (b : HBag) : Nat × HState :=
  (st.heap.length, { st with heap := st.heap ++ [b] })

/-- The `parent.add(prop)` mutation on the heap: rewrite the record in
place, visible through every alias. -/
def addChildH (st : HState) (r : Nat) (k : String) (c : Nat) : HState :=
  match st.heap[r]? with
  | none => st
  | some b =>
      { st with
        heap := st.heap.set r { b with children := dictInsertN b.children k c } }

/-- The `count` property (fresh, uncached) on the heap. -/
def countH (st : HState) (fuel r : Nat) : Nat :=
  (flattenH st.heap fuel r).length

/-- Fuel ample for every base chain of an allocation-ordered heap. -/
def heapFuel (st : HState) : Nat :=
  (st.heap.length + 1) * (st.heap.length + 1)

mutual

/-- One iteration of the `for child in tree.children` loop over live
objects, with both `lru_cache` tables live.  The stacks hold references,
so a bag mutated deeper in the recursion is seen mutated through every
alias, and nothing needs to be re-attached on the way out. -/
def processNodeC :
    IndentationTree → List Nat → List Nat → HState → List String →
      Option (HState × List String)
  | .mk _ txt nodeChildren, parents, abstracts, hs, ws =>
      match parents with
      | [] => none
      | pr :: _ =>
          match lineMatch txt with
          | none => none
          | some m =>
              let name :=
                if pyStrip m.rawName = ""
                then toString (countH hs (heapFuel hs) pr)
                else pyStrip m.rawName
              if m.hasEquals then
                match m.valueCap with
                | some v =>
                    let a := allocH hs ⟨name, pyStrip v, [], []⟩
                    some (addChildH a.2 pr name a.1, ws)
                | none =>
                    let a := allocH hs ⟨name, joinTexts nodeChildren "", [], []⟩
                    some (addChildH a.2 pr name a.1, ws)
              else
                let rbs := resolveBasesC (heapFuel hs) parents abstracts hs
                  (m.inherits.map (inheritName name))
                let a := allocH rbs.2.2 ⟨name, "", rbs.1, []⟩
                match m.isAbstract, abstracts with
                | true, [] => none
                | true, hold :: _ =>
                    let hs1 := addChildH a.2 hold name a.1
                    let ha := allocH hs1 ⟨"abstract", "", [], []⟩
                    processListC nodeChildren (a.1 :: parents)
                      (ha.1 :: abstracts) ha.2 (ws ++ rbs.2.1)
                | false, _ =>
                    let hs1 := addChildH a.2 pr name a.1
                    let ha := allocH hs1 ⟨"abstract", "", [], []⟩
                    processListC nodeChildren (a.1 :: parents)
                      (ha.1 :: abstracts) ha.2 (ws ++ rbs.2.1)

/-- The `for child in tree.children` loop itself, over live objects. -/
def processListC :
    List IndentationTree → List Nat → List Nat → HState → List String →
      Option (HState × List String)
  | [], _, _, hs, ws => some (hs, ws)
  | n :: rest, parents, abstracts, hs, ws =>
      match processNodeC n parents abstracts hs ws with
      | none => none
      | some (hs', ws') => processListC rest parents abstracts hs' ws'

end

/-- `PropertyBagParser.parse` over live objects: the root is allocated at
reference 0 and the top-level abstract holder at reference 1, both caches
start empty. -/
def parseBagC (tree : IndentationTree) : Option (HState × List String) :=
  processListC tree.children [0] [1]
    ⟨[⟨"root", "", [], []⟩, ⟨"abstract", "", [], []⟩], [], []⟩ []

/-- The full pipeline over live objects; the root bag sits at reference 0
of the resulting heap. -/
def parseLinesC (lines : List String) : Option (HState × List String) :=
  match IndentationTree.parse lines with
  | none => none
  | some t => parseBagC t

/-- The record of the bag at a reference. -/
def hbagAt (hs : HState) (r : Nat) : Option HBag := hs.heap[r]?

/-- Follow direct-children names from a reference. -/
def childRefAt (hs : HState) : Nat → List String → Option Nat
  | r, [] => some r
  | r, n :: rest =>
      match hbagAt hs r with
      | none => none
      | some b =>
          match dictLookupN b.children n with
          | none => none
          | some c => childRefAt hs c rest

/-- Every reference stored in a bag points below the allocation
frontier. -/
def hbagWF (len : Nat) (b : HBag) : Bool :=
  b.bases.all (fun r => r < len) && b.children.all (fun kv => kv.2 < len)

/-- Every reference stored anywhere in the state points below the
allocation frontier (true of every state a parse can reach). -/
def hstateWF (st : HState) : Bool :=
  st.heap.all (hbagWF st.heap.length) &&
  st.gCache.all (fun e =>
    match e.2 with
    | some r => r < st.heap.length
    | none => true)

/-- Cache-poisoning input for C2: the failed lookup of `x` at `b :: x`
caches `False` for the root and the holder; `c :: x` then reuses the
stale entries although `x` is by then a direct child of the root. -/
def c2badLines : List String := ["b :: x", "x", "c :: x"]

/-- Cache-poisoning input for C3: `foo ::` under `a` reuses the stale
miss cached at `b :: foo`, although the enclosing `foo` exists by then. -/
def c3badLines : List String := ["b :: foo", "foo", "a", "  foo ::"]

/-- Cache-poisoning input for C5: the abstract `t` is declared after a
failed lookup of `t` has already cached `False` at its holder. -/
def c5badLines : List String := ["b :: t", ":: t", "c :: t"]


/-! ### Staged states of the cached parses -/

/-- Live state of `c2lines` after its first top-level declaration. -/
def c2ch1 : HState :=
  ⟨[⟨"root", "", [], [("a", 2)]⟩,
    ⟨"abstract", "", [], []⟩,
    ⟨"a", "", [], [("foo", 4)]⟩,
    ⟨"abstract", "", [], []⟩,
    ⟨"foo", "", [], [("marker", 6)]⟩,
    ⟨"abstract", "", [], []⟩,
    ⟨"marker", "hi", [], []⟩],
   [], []⟩

/-- Live state of `c2lines` once parsed: `c` (reference 9) has the base
`foo` (reference 4), resolved through `b`'s flattened view. -/
def c2ch2 : HState :=
  ⟨[⟨"root", "", [], [("a", 2), ("b", 7)]⟩,
    ⟨"abstract", "", [], []⟩,
    ⟨"a", "", [], [("foo", 4)]⟩,
    ⟨"abstract", "", [], []⟩,
    ⟨"foo", "", [], [("marker", 6)]⟩,
    ⟨"abstract", "", [], []⟩,
    ⟨"marker", "hi", [], []⟩,
    ⟨"b", "", [2], [("c", 9)]⟩,
    ⟨"abstract", "", [], []⟩,
    ⟨"c", "", [4], []⟩,
    ⟨"abstract", "", [], []⟩],
   [((2, "foo"), true), ((7, "foo"), true), ((0, "a"), true)],
   [((7, "foo"), some 4), ((2, "foo"), some 4), ((0, "a"), some 2)]⟩

/-- Live state of `c3lines` after its first top-level declaration. -/
def c3ch1 : HState :=
  ⟨[⟨"root", "", [], [("foo", 2)]⟩,
    ⟨"abstract", "", [], []⟩,
    ⟨"foo", "", [], [("bar", 4)]⟩,
    ⟨"abstract", "", [], []⟩,
    ⟨"bar", "in base", [], []⟩],
   [], []⟩

/-- Live state of `c3lines` after its second top-level declaration. -/
def c3ch2 : HState :=
  ⟨[⟨"root", "", [], [("foo", 2), ("a", 5)]⟩,
    ⟨"abstract", "", [], []⟩,
    ⟨"foo", "", [], [("bar", 4)]⟩,
    ⟨"abstract", "", [], []⟩,
    ⟨"bar", "in base", [], []⟩,
    ⟨"a", "", [], [("foo", 7)]⟩,
    ⟨"abstract", "", [], []⟩,
    ⟨"foo", "", [2], [("bar", 9)]⟩,
    ⟨"abstract", "", [], []⟩,
    ⟨"bar", "overridden", [], []⟩],
   [((0, "foo"), true), ((5, "foo"), false)],
   [((0, "foo"), some 2)]⟩

/-- Live state of `c3lines` once parsed: both `foo ::` bags (references 7
and 12) have the ancestor `foo` (reference 2) as base. -/
def c3ch3 : HState :=
  ⟨[⟨"root", "", [], [("foo", 2), ("a", 5), ("b", 10)]⟩,
    ⟨"abstract", "", [], []⟩,
    ⟨"foo", "", [], [("bar", 4)]⟩,
    ⟨"abstract", "", [], []⟩,
    ⟨"bar", "in base", [], []⟩,
    ⟨"a", "", [], [("foo", 7)]⟩,
    ⟨"abstract", "", [], []⟩,
    ⟨"foo", "", [2], [("bar", 9)]⟩,
    ⟨"abstract", "", [], []⟩,
    ⟨"bar", "overridden", [], []⟩,
    ⟨"b", "", [], [("foo", 12)]⟩,
    ⟨"abstract", "", [], []⟩,
    ⟨"foo", "", [2], []⟩,
    ⟨"abstract", "", [], []⟩],
   [((0, "foo"), true), ((10, "foo"), false), ((5, "foo"), false)],
   [((0, "foo"), some 2)]⟩

/-- Live state of `c5lines` after `:: a`. -/
def c5ch1 : HState :=
  ⟨[⟨"root", "", [], []⟩,
    ⟨"abstract", "", [], [("a", 2)]⟩,
    ⟨"a", "", [], [("foo", 4), ("bar", 5)]⟩,
    ⟨"abstract", "", [], []⟩,
    ⟨"foo", "from a", [], []⟩,
    ⟨"bar", "from a", [], []⟩],
   [], []⟩

/-- Live state of `c5lines` after `:: a` and `:: b`. -/
def c5ch2 : HState :=
  ⟨[⟨"root", "", [], []⟩,
    ⟨"abstract", "", [], [("a", 2), ("b", 6)]⟩,
    ⟨"a", "", [], [("foo", 4), ("bar", 5)]⟩,
    ⟨"abstract", "", [], []⟩,
    ⟨"foo", "from a", [], []⟩,
    ⟨"bar", "from a", [], []⟩,
    ⟨"b", "", [], [("foo", 8), ("baz", 9)]⟩,
    ⟨"abstract", "", [], []⟩,
    ⟨"foo", "from b", [], []⟩,
    ⟨"baz", "from b", [], []⟩],
   [], []⟩

/-- Live state of `c5lines` once parsed: the abstract `a` and `b` live in
the holder (reference 1), not under the root, and `c` (reference 10)
resolved both. -/
def c5ch3 : HState :=
  ⟨[⟨"root", "", [], [("c", 10)]⟩,
    ⟨"abstract", "", [], [("a", 2), ("b", 6)]⟩,
    ⟨"a", "", [], [("foo", 4), ("bar", 5)]⟩,
    ⟨"abstract", "", [], []⟩,
    ⟨"foo", "from a", [], []⟩,
    ⟨"bar", "from a", [], []⟩,
    ⟨"b", "", [], [("foo", 8), ("baz", 9)]⟩,
    ⟨"abstract", "", [], []⟩,
    ⟨"foo", "from b", [], []⟩,
    ⟨"baz", "from b", [], []⟩,
    ⟨"c", "", [2, 6], [("sprang", 12)]⟩,
    ⟨"abstract", "", [], []⟩,
    ⟨"sprang", "from c", [], []⟩],
   [((1, "b"), true), ((0, "b"), false), ((1, "a"), true), ((0, "a"), false)],
   [((1, "b"), some 6), ((1, "a"), some 2)]⟩

/-- A two-bag heap — `r` (reference 0) holding the child `t`
(reference 1) — for exercising the cached resolution laws concretely. -/
def wstHeap : List HBag := [⟨"r", "", [], [("t", 1)]⟩, ⟨"t", "", [], []⟩]

/-- The two-bag heap with both caches clean. -/
def wst : HState := ⟨wstHeap, [], []⟩

/-- The two-bag heap with a stale `False` cached for `(r, "t")`. -/
def wstStale : HState := ⟨wstHeap, [((0, "t"), false)], []⟩


/-! # Lemmas about the dictionary model and the flattened view -/

theorem dictLookup_dictInsert (m : List (String × PropertyBag)) (k : String)
    (v : PropertyBag) (k' : String) :
    dictLookup (dictInsert m k v) k' =
      if k = k' then some v else dictLookup m k' := by
  induction m with
  | nil => simp [dictInsert, dictLookup]
  | cons kv rest ih =>
      obtain ⟨k0, v0⟩ := kv
      by_cases h0 : k0 = k
      · subst h0
        simp only [dictInsert, if_pos rfl, dictLookup]
        by_cases h1 : k0 = k' <;> simp [h1]
      · by_cases h1 : k0 = k'
        · subst h1
          have hkk : ¬ k = k0 := fun h => h0 h.symm
          simp [dictInsert, dictLookup, h0, hkk]
        · simp [dictInsert, dictLookup, h0, h1, ih]

theorem lastLookup_isSome (m : List (String × PropertyBag)) (k : String) :
    (lastLookup m k).isSome = (dictLookup m k).isSome := by
  induction m with
  | nil => rfl
  | cons kv rest ih =>
      obtain ⟨k0, v0⟩ := kv
      simp only [lastLookup, dictLookup]
      cases hrest : lastLookup rest k with
      | some r =>
          have h : (dictLookup rest k).isSome = true := by
            rw [← ih, hrest]; rfl
          by_cases h0 : k0 = k <;> simp [h0, h]
      | none =>
          have h : (dictLookup rest k).isSome = false := by
            rw [← ih, hrest]; rfl
          by_cases h0 : k0 = k <;> simp [h0, h]

theorem lastLookup_eq_dictLookup (m : List (String × PropertyBag))
    (h : keysNodup m = true) (k : String) :
    lastLookup m k = dictLookup m k := by
  induction m with
  | nil => rfl
  | cons kv rest ih =>
      obtain ⟨k0, v0⟩ := kv
      simp only [keysNodup, Bool.and_eq_true] at h
      obtain ⟨h1, h2⟩ := h
      simp only [lastLookup, dictLookup]
      rw [ih h2]
      by_cases h0 : k0 = k
      · subst h0
        have hd : dictLookup rest k0 = none := Option.eq_none_of_isNone h1
        simp [hd]
      · cases hd : dictLookup rest k with
        | some r => simp [h0]
        | none => simp [h0]

theorem dictLookup_dinsertAll (xs acc : List (String × PropertyBag))
    (k : String) :
    dictLookup (dinsertAll acc xs) k =
      match lastLookup xs k with
      | some v => some v
      | none => dictLookup acc k := by
  induction xs generalizing acc with
  | nil => rfl
  | cons kv rest ih =>
      obtain ⟨k0, v0⟩ := kv
      simp only [dinsertAll, lastLookup]
      rw [ih]
      cases hr : lastLookup rest k with
      | some r => simp
      | none =>
          rw [dictLookup_dictInsert]
          by_cases h0 : k0 = k <;> simp [h0]

theorem keysNodup_dictInsert (m : List (String × PropertyBag))
    (h : keysNodup m = true) (k : String) (v : PropertyBag) :
    keysNodup (dictInsert m k v) = true := by
  induction m with
  | nil => simp [dictInsert, keysNodup, dictLookup]
  | cons kv rest ih =>
      obtain ⟨k0, v0⟩ := kv
      simp only [keysNodup, Bool.and_eq_true] at h
      obtain ⟨h1, h2⟩ := h
      by_cases h0 : k0 = k
      · subst h0
        simp [dictInsert, keysNodup, h1, h2]
      · simp only [dictInsert, if_neg h0, keysNodup, Bool.and_eq_true]
        refine ⟨?_, ih h2⟩
        rw [dictLookup_dictInsert]
        have hkk : ¬ k = k0 := fun hh => h0 hh.symm
        simp [hkk, h1]

theorem keysNodup_dinsertAll (xs acc : List (String × PropertyBag))
    (h : keysNodup acc = true) :
    keysNodup (dinsertAll acc xs) = true := by
  induction xs generalizing acc with
  | nil => exact h
  | cons kv rest ih =>
      obtain ⟨k0, v0⟩ := kv
      exact ih _ (keysNodup_dictInsert acc h k0 v0)

theorem keysNodup_flattenBases (bs : List PropertyBag)
    (acc : List (String × PropertyBag)) (h : keysNodup acc = true) :
    keysNodup (PropertyBag.flattenBases bs acc) = true := by
  induction bs generalizing acc with
  | nil => exact h
  | cons b rest ih =>
      simp only [PropertyBag.flattenBases]
      exact ih _ (keysNodup_dinsertAll _ _ h)

theorem keysNodup_flatten (b : PropertyBag) :
    keysNodup b.flatten_properties = true := by
  cases b with
  | mk n v bs cs =>
      simp only [PropertyBag.flatten_properties]
      exact keysNodup_dinsertAll _ _ (keysNodup_flattenBases _ _ rfl)

theorem dictLookup_flattenBases (bs : List PropertyBag)
    (acc : List (String × PropertyBag)) (k : String) :
    dictLookup (PropertyBag.flattenBases bs acc) k =
      match basesFlatLookup bs k with
      | some r => some r
      | none => dictLookup acc k := by
  induction bs generalizing acc with
  | nil => rfl
  | cons b rest ih =>
      simp only [PropertyBag.flattenBases, basesFlatLookup]
      rw [ih]
      cases hr : basesFlatLookup rest k with
      | some r => simp
      | none =>
          rw [dictLookup_dinsertAll,
              lastLookup_eq_dictLookup _ (keysNodup_flatten b)]

theorem dictLookup_flatten (n v : String) (bs : List PropertyBag)
    (cs : List (String × PropertyBag)) (k : String) :
    dictLookup (PropertyBag.flatten_properties (.mk n v bs cs)) k =
      match lastLookup cs k with
      | some c => some c
      | none => basesFlatLookup bs k := by
  simp only [PropertyBag.flatten_properties]
  rw [dictLookup_dinsertAll, dictLookup_flattenBases]
  cases lastLookup cs k with
  | some c => rfl
  | none => cases basesFlatLookup bs k <;> rfl

theorem getitemBases_isSome (bs : List PropertyBag)
    (h : ∀ b ∈ bs, ∀ k, b.contains k = (b.getitem k).isSome) (k : String) :
    (PropertyBag.getitemBases bs k).isSome = (basesFlatLookup bs k).isSome := by
  induction bs with
  | nil => rfl
  | cons b rest ih =>
      have hb := h b (by simp)
      have hrest := ih (fun b' hb' k' => h b' (by simp [hb']) k')
      simp only [PropertyBag.getitemBases, basesFlatLookup]
      cases hr : PropertyBag.getitemBases rest k with
      | some r =>
          have hsome : (basesFlatLookup rest k).isSome = true := by
            rw [← hrest, hr]; rfl
          cases hr2 : basesFlatLookup rest k with
          | some r2 => rfl
          | none => rw [hr2] at hsome; simp at hsome
      | none =>
          have hnone : (basesFlatLookup rest k).isSome = false := by
            rw [← hrest, hr]; rfl
          cases hr2 : basesFlatLookup rest k with
          | some r2 => rw [hr2] at hnone; simp at hnone
          | none =>
              simp only
              by_cases hc : b.contains k = true
              · rw [if_pos hc, ← hb k, hc]
                have := hc
                simp only [PropertyBag.contains] at this
                exact this.symm
              · have hc' : b.contains k = false := by
                  cases hcc : b.contains k
                  · rfl
                  · exact absurd hcc hc
                rw [if_neg (by simp [hc'])]
                simp only [PropertyBag.contains] at hc'
                simp [hc']

theorem contains_eq_isSome_getitem_aux :
    ∀ (N : Nat) (b : PropertyBag), sizeOf b ≤ N → ∀ k,
      PropertyBag.contains b k = (PropertyBag.getitem b k).isSome := by
  intro N
  induction N with
  | zero =>
      intro b hb k
      cases b with
      | mk n v bs cs => simp at hb
  | succ N ih =>
      intro b hb k
      cases b with
      | mk n v bs cs =>
          have hbs : ∀ b' ∈ bs, sizeOf b' ≤ N := by
            intro b' hm
            have h1 := List.sizeOf_lt_of_mem hm
            simp at hb
            omega
          simp only [PropertyBag.contains, PropertyBag.getitem]
          rw [dictLookup_flatten]
          have hbase := getitemBases_isSome bs
            (fun b' hm k' => ih b' (hbs b' hm) k') k
          cases hc : dictLookup cs k with
          | some c =>
              have : (lastLookup cs k).isSome = true := by
                rw [lastLookup_isSome, hc]; rfl
              cases hl : lastLookup cs k with
              | some c' => rfl
              | none => rw [hl] at this; simp at this
          | none =>
              have : (lastLookup cs k).isSome = false := by
                rw [lastLookup_isSome, hc]; rfl
              cases hl : lastLookup cs k with
              | some c' => rw [hl] at this; simp at this
              | none => simp only; exact hbase.symm

theorem contains_eq_isSome_getitem (b : PropertyBag) (k : String) :
    PropertyBag.contains b k = (PropertyBag.getitem b k).isSome :=
  contains_eq_isSome_getitem_aux (sizeOf b) b (Nat.le_refl _) k

/-- Claim C1: For every `PropertyBag`, the flattened view is built by
iterating the bases in declared order, merging each base's own flattened
map so that a later-listed base overrides an earlier one on name
collisions, and then overlaying the bag's direct children, which win over
any inherited entry (stated as the induced lookup rule: direct children
first, otherwise the last base in declaration order whose flattened map
has the name); in particular, for the bags `a`, `b`, `c` of the
multiple-inheritance example, `c`'s flattened view has exactly the four
entries `foo="from b"`, `bar="from a"`, `baz="from b"`, `sprang="from c"`. -/
theorem flatten_build_rule :
    (∀ (n v : String) (bs : List PropertyBag)
        (cs : List (String × PropertyBag)) (k : String),
        keysNodup cs = true →
        dictLookup (PropertyBag.flatten_properties (.mk n v bs cs)) k =
          match dictLookup cs k with
          | some c => some c
          | none => basesFlatLookup bs k) ∧
    exC.flatten_properties.map (fun kv => (kv.1, kv.2.value)) =
      [("foo", "from b"), ("bar", "from a"), ("baz", "from b"),
       ("sprang", "from c")] := by
  constructor
  · intro n v bs cs k h
    rw [dictLookup_flatten, lastLookup_eq_dictLookup _ h]
  · decide

/-- Witness for C1: the lookup rule instantiated on the concrete bag `c`
of the multiple-inheritance example and the name `foo`. -/
theorem flatten_build_rule_witness :
    keysNodup [("sprang", PropertyBag.mk "sprang" "from c" [] [])] = true ∧
    dictLookup (PropertyBag.flatten_properties
        (.mk "c" "" [exA, exB]
          [("sprang", .mk "sprang" "from c" [] [])])) "foo" =
      match dictLookup [("sprang", PropertyBag.mk "sprang" "from c" [] [])]
          "foo" with
      | some c => some c
      | none => basesFlatLookup [exA, exB] "foo" :=
  ⟨by decide,
   flatten_build_rule.1 "c" "" [exA, exB]
     [("sprang", .mk "sprang" "from c" [] [])] "foo" (by decide)⟩

/-- Shape preservation of the parser stacks: one step of the line loop
(and hence a whole level's loop) only ever rewrites the top of each stack,
so lengths and everything below the top are preserved. -/
theorem stacks_shape_aux (N : Nat) :
    (∀ (node : IndentationTree) (st st' : PState), sizeOf node ≤ N →
        processNode node st = some st' →
        st'.parents.length = st.parents.length ∧
        st'.parents.tail = st.parents.tail ∧
        st'.abstracts.length = st.abstracts.length ∧
        st'.abstracts.tail = st.abstracts.tail) ∧
    (∀ (nodes : List IndentationTree) (st st' : PState), sizeOf nodes ≤ N →
        processList nodes st = some st' →
        st'.parents.length = st.parents.length ∧
        st'.parents.tail = st.parents.tail ∧
        st'.abstracts.length = st.abstracts.length ∧
        st'.abstracts.tail = st.abstracts.tail) := by
  induction N with
  | zero =>
      constructor
      · intro node st st' h
        cases node with
        | mk i t cs => simp at h
      · intro nodes st st' h
        cases nodes with
        | nil => simp at h
        | cons a l => simp at h
  | succ N ih =>
      constructor
      · intro node st st' h hrun
        cases node with
        | mk i txt cs =>
            have hcs : sizeOf cs ≤ N := by simp at h; omega
            cases hps : st.parents with
            | nil => simp [processNode, hps] at hrun
            | cons parent ps =>
                simp only [processNode, hps] at hrun
                cases hm : lineMatch txt with
                | none =>
                    simp only [hm] at hrun
                    cases hrun
                | some m =>
                    simp only [hm] at hrun
                    by_cases heq : m.hasEquals
                    · simp only [heq, if_true] at hrun
                      cases hv : m.valueCap with
                      | some v =>
                          simp only [hv] at hrun
                          cases hrun
                          simp [hps]
                      | none =>
                          simp only [hv] at hrun
                          cases hrun
                          simp [hps]
                    · simp only [Bool.not_eq_true] at heq
                      simp only [heq, Bool.false_eq_true, if_false] at hrun
                      by_cases habs : m.isAbstract
                      · simp only [habs, if_true] at hrun
                        split at hrun
                        · cases hrun
                        · rename_i hold hs habss
                          split at hrun
                          · cases hrun
                          · rename_i st2 hrec
                            split at hrun
                            · rename_i fp ps2 head hold2 hs2 hp2 ha2
                              cases hrun
                              obtain ⟨hl1, ht1, hl2, ht2⟩ :=
                                ih.2 cs _ st2 hcs hrec
                              rw [hp2] at ht1
                              rw [ha2] at ht2
                              simp at ht1 ht2
                              obtain ⟨hh2, hhs2⟩ := ht2
                              subst ht1; subst hhs2
                              simp [hps, habss]
                            · cases hrun
                      · simp only [Bool.not_eq_true] at habs
                        simp only [habs, Bool.false_eq_true, if_false] at hrun
                        split at hrun
                        · cases hrun
                        · rename_i st2 hrec
                          split at hrun
                          · rename_i fp q qs head as2 hp2 ha2
                            cases hrun
                            obtain ⟨hl1, ht1, hl2, ht2⟩ :=
                              ih.2 cs _ st2 hcs hrec
                            rw [hp2] at ht1
                            rw [ha2] at ht2
                            simp at ht1 ht2
                            obtain ⟨hq, hqs⟩ := ht1
                            subst hq; subst hqs; subst ht2
                            simp [hps]
                          · cases hrun
      · intro nodes st st' h hrun
        cases nodes with
        | nil =>
            simp only [processList] at hrun
            cases hrun
            exact ⟨rfl, rfl, rfl, rfl⟩
        | cons nd rest =>
            have hnd : sizeOf nd ≤ N := by simp at h; omega
            have hrest : sizeOf rest ≤ N := by simp at h; omega
            simp only [processList] at hrun
            cases hstep : processNode nd st with
            | none =>
                simp only [hstep] at hrun
                cases hrun
            | some st1 =>
                simp only [hstep] at hrun
                have h1 := ih.1 nd st st1 hnd hstep
                have h2 := ih.2 rest st1 st' hrest hrun
                exact ⟨h2.1.trans h1.1, h2.2.1.trans h1.2.1,
                       h2.2.2.1.trans h1.2.2.1, h2.2.2.2.trans h1.2.2.2⟩

/-! # Evaluation of the concrete parses, one top-level declaration at a
time -/

theorem c2step1 :
    processNode (.mk 0 "a" [.mk 1 "foo" [.mk 2 "marker = hi" []]])
      ⟨[.mk "root" "" [] []], [freshHolder], []⟩ =
    some ⟨[c2r1], [freshHolder], []⟩ := rfl

theorem c2step2 :
    processNode (.mk 0 "b :: a" [.mk 1 "c :: foo" []])
      ⟨[c2r1], [freshHolder], []⟩ =
    some ⟨[c2root], [freshHolder], []⟩ := rfl

theorem c2parse : parseLines c2lines = some (c2root, []) := by
  have ht : IndentationTree.parse c2lines =
      some (.mk (-1) ""
        [.mk 0 "a" [.mk 1 "foo" [.mk 2 "marker = hi" []]],
         .mk 0 "b :: a" [.mk 1 "c :: foo" []]]) := rfl
  simp only [parseLines, ht, PropertyBagParser.parse,
             IndentationTree.children, processList, c2step1, c2step2]

theorem c3step1 :
    processNode (.mk 0 "foo" [.mk 1 "bar = in base" []])
      ⟨[.mk "root" "" [] []], [freshHolder], []⟩ =
    some ⟨[c3r1], [freshHolder], []⟩ := rfl

theorem c3step2 :
    processNode (.mk 0 "a" [.mk 1 "foo ::" [.mk 2 "bar = overridden" []]])
      ⟨[c3r1], [freshHolder], []⟩ =
    some ⟨[c3r2], [freshHolder], []⟩ := rfl

theorem c3step3 :
    processNode (.mk 0 "b" [.mk 1 "foo ::" []])
      ⟨[c3r2], [freshHolder], []⟩ =
    some ⟨[c3root], [freshHolder], []⟩ := rfl

theorem c3parse : parseLines c3lines = some (c3root, []) := by
  have ht : IndentationTree.parse c3lines =
      some (.mk (-1) ""
        [.mk 0 "foo" [.mk 1 "bar = in base" []],
         .mk 0 "a" [.mk 1 "foo ::" [.mk 2 "bar = overridden" []]],
         .mk 0 "b" [.mk 1 "foo ::" []]]) := rfl
  simp only [parseLines, ht, PropertyBagParser.parse,
             IndentationTree.children, processList, c3step1, c3step2,
             c3step3]

theorem c5step1 :
    processNode (.mk 0 ":: a" [.mk 1 "foo = from a" [],
        .mk 1 "bar = from a" []])
      ⟨[.mk "root" "" [] []], [freshHolder], []⟩ =
    some ⟨[.mk "root" "" [] []], [c5h1], []⟩ := rfl

theorem c5step2 :
    processNode (.mk 0 ":: b" [.mk 1 "foo = from b" [],
        .mk 1 "baz = from b" []])
      ⟨[.mk "root" "" [] []], [c5h1], []⟩ =
    some ⟨[.mk "root" "" [] []], [c5h2], []⟩ := rfl

theorem c5step3 :
    processNode (.mk 0 "c :: a :: b" [.mk 1 "sprang = from c" []])
      ⟨[.mk "root" "" [] []], [c5h2], []⟩ =
    some ⟨[c5root], [c5h2], []⟩ := rfl

theorem c5parse : parseLines c5lines = some (c5root, []) := by
  have ht : IndentationTree.parse c5lines =
      some (.mk (-1) ""
        [.mk 0 ":: a" [.mk 1 "foo = from a" [], .mk 1 "bar = from a" []],
         .mk 0 ":: b" [.mk 1 "foo = from b" [], .mk 1 "baz = from b" []],
         .mk 0 "c :: a :: b" [.mk 1 "sprang = from c" []]]) := rfl
  simp only [parseLines, ht, PropertyBagParser.parse,
             IndentationTree.children, processList, c5step1, c5step2,
             c5step3]

theorem c6deepParse : parseLines c6deepLines = some (c6deepRoot, []) := by
  have ht : IndentationTree.parse c6deepLines =
      some (.mk (-1) "" [.mk 0 "m =" [.mk 1 "x" [.mk 2 "y" []]]]) := rfl
  have hstep : processNode (.mk 0 "m =" [.mk 1 "x" [.mk 2 "y" []]])
      ⟨[.mk "root" "" [] []], [freshHolder], []⟩ =
      some ⟨[c6deepRoot], [freshHolder], []⟩ := rfl
  simp only [parseLines, ht, PropertyBagParser.parse,
             IndentationTree.children, processList, hstep]

theorem c6flatParse : parseLines c6flatLines = some (c6flatRoot, []) := by
  have ht : IndentationTree.parse c6flatLines =
      some (.mk (-1) "" [.mk 0 "m =" [.mk 1 "x" [], .mk 1 "y" []]]) := rfl
  have hstep : processNode (.mk 0 "m =" [.mk 1 "x" [], .mk 1 "y" []])
      ⟨[.mk "root" "" [] []], [freshHolder], []⟩ =
      some ⟨[c6flatRoot], [freshHolder], []⟩ := rfl
  simp only [parseLines, ht, PropertyBagParser.parse,
             IndentationTree.children, processList, hstep]

theorem c8step1 :
    processNode (.mk 0 "a" [])
      ⟨[.mk "root" "" [] []], [freshHolder], []⟩ =
    some ⟨[c8r1], [freshHolder], []⟩ := rfl

theorem c8step2 :
    processNode (.mk 0 "b :: missing" [.mk 1 "c = 1" []])
      ⟨[c8r1], [freshHolder], []⟩ =
    some ⟨[c8root], [freshHolder], ["missing"]⟩ := rfl

theorem c8parse : parseLines c8lines = some (c8root, ["missing"]) := by
  have ht : IndentationTree.parse c8lines =
      some (.mk (-1) ""
        [.mk 0 "a" [], .mk 0 "b :: missing" [.mk 1 "c = 1" []]]) := rfl
  simp only [parseLines, ht, PropertyBagParser.parse,
             IndentationTree.children, processList, c8step1, c8step2]

/-! ## Evaluation of the cached parses, one top-level declaration at a
time -/

theorem c2stepC1 :
    processNodeC (.mk 0 "a" [.mk 1 "foo" [.mk 2 "marker = hi" []]])
      [0] [1] ⟨[⟨"root", "", [], []⟩, ⟨"abstract", "", [], []⟩], [], []⟩ [] =
    some (c2ch1, []) := rfl

theorem c2stepC2 :
    processNodeC (.mk 0 "b :: a" [.mk 1 "c :: foo" []]) [0] [1] c2ch1 [] =
    some (c2ch2, []) := rfl

theorem c2parseC : parseLinesC c2lines = some (c2ch2, []) := by
  have ht : IndentationTree.parse c2lines =
      some (.mk (-1) ""
        [.mk 0 "a" [.mk 1 "foo" [.mk 2 "marker = hi" []]],
         .mk 0 "b :: a" [.mk 1 "c :: foo" []]]) := rfl
  simp only [parseLinesC, ht, parseBagC, IndentationTree.children,
             processListC, c2stepC1, c2stepC2]

theorem c3stepC1 :
    processNodeC (.mk 0 "foo" [.mk 1 "bar = in base" []])
      [0] [1] ⟨[⟨"root", "", [], []⟩, ⟨"abstract", "", [], []⟩], [], []⟩ [] =
    some (c3ch1, []) := rfl

theorem c3stepC2 :
    processNodeC (.mk 0 "a" [.mk 1 "foo ::" [.mk 2 "bar = overridden" []]])
      [0] [1] c3ch1 [] =
    some (c3ch2, []) := rfl

theorem c3stepC3 :
    processNodeC (.mk 0 "b" [.mk 1 "foo ::" []]) [0] [1] c3ch2 [] =
    some (c3ch3, []) := rfl

theorem c3parseC : parseLinesC c3lines = some (c3ch3, []) := by
  have ht : IndentationTree.parse c3lines =
      some (.mk (-1) ""
        [.mk 0 "foo" [.mk 1 "bar = in base" []],
         .mk 0 "a" [.mk 1 "foo ::" [.mk 2 "bar = overridden" []]],
         .mk 0 "b" [.mk 1 "foo ::" []]]) := rfl
  simp only [parseLinesC, ht, parseBagC, IndentationTree.children,
             processListC, c3stepC1, c3stepC2, c3stepC3]

theorem c5stepC1 :
    processNodeC (.mk 0 ":: a" [.mk 1 "foo = from a" [],
        .mk 1 "bar = from a" []])
      [0] [1] ⟨[⟨"root", "", [], []⟩, ⟨"abstract", "", [], []⟩], [], []⟩ [] =
    some (c5ch1, []) := rfl

theorem c5stepC2 :
    processNodeC (.mk 0 ":: b" [.mk 1 "foo = from b" [],
        .mk 1 "baz = from b" []])
      [0] [1] c5ch1 [] =
    some (c5ch2, []) := rfl

theorem c5stepC3 :
    processNodeC (.mk 0 "c :: a :: b" [.mk 1 "sprang = from c" []])
      [0] [1] c5ch2 [] =
    some (c5ch3, []) := rfl

theorem c5parseC : parseLinesC c5lines = some (c5ch3, []) := by
  have ht : IndentationTree.parse c5lines =
      some (.mk (-1) ""
        [.mk 0 ":: a" [.mk 1 "foo = from a" [], .mk 1 "bar = from a" []],
         .mk 0 ":: b" [.mk 1 "foo = from b" [], .mk 1 "baz = from b" []],
         .mk 0 "c :: a :: b" [.mk 1 "sprang = from c" []]]) := rfl
  simp only [parseLinesC, ht, parseBagC, IndentationTree.children,
             processListC, c5stepC1, c5stepC2, c5stepC3]


theorem PropertyBag.children_add (b c : PropertyBag) :
    (b.add c).children = dictInsert b.children c.name c := rfl

/-- An abstract collection declaration is registered in the current
level's abstract holder and the concrete parent stack comes back entirely
unchanged. -/
theorem abstract_step_holder (ind : Int) (txt : String)
    (cs : List IndentationTree) (parent : PropertyBag)
    (ps : List PropertyBag) (hold : PropertyBag) (hs : List PropertyBag)
    (ws : List String) (m : LineMatch) (st' : PState)
    (hm : lineMatch txt = some m) (habs : m.isAbstract = true)
    (heq : m.hasEquals = false)
    (hrun : processNode (.mk ind txt cs) ⟨parent :: ps, hold :: hs, ws⟩ =
      some st') :
    st'.parents = parent :: ps ∧
    ∃ hold', st'.abstracts = hold' :: hs ∧
      (dictLookup hold'.children
        (if pyStrip m.rawName = "" then toString parent.count
         else pyStrip m.rawName)).isSome = true := by
  simp only [processNode] at hrun
  simp only [hm, heq, Bool.false_eq_true, if_false, habs, if_true] at hrun
  split at hrun
  · cases hrun
  · rename_i st2 hrec
    split at hrun
    · rename_i fp ps2 head hold2 hs2 hp2 ha2
      cases hrun
      obtain ⟨hl1, ht1, hl2, ht2⟩ :=
        (stacks_shape_aux (sizeOf cs)).2 cs _ st2 (Nat.le_refl _) hrec
      rw [hp2] at ht1
      rw [ha2] at ht2
      simp at ht1 ht2
      obtain ⟨hh2, hhs2⟩ := ht2
      subst ht1; subst hhs2; subst hh2
      refine ⟨rfl, _, rfl, ?_⟩
      rw [PropertyBag.children_add, PropertyBag.children_add,
          dictLookup_dictInsert]
      by_cases hfp : fp.name = (if pyStrip m.rawName = ""
          then toString parent.count else pyStrip m.rawName)
      · rw [if_pos hfp]
        rfl
      · rw [if_neg hfp, dictLookup_dictInsert]
        simp [PropertyBag.name]
    · cases hrun





theorem firstContaining_eq_find (ps : List PropertyBag) (n : String) :
    firstContaining ps n = ps.find? (fun p => p.contains n) := by
  induction ps with
  | nil => rfl
  | cons p rest ih =>
      simp only [firstContaining, List.find?]
      by_cases h : p.contains n = true
      · simp [h]
      · have h' : p.contains n = false := by
          cases hc : p.contains n
          · rfl
          · exact absurd hc h
        simp [h', ih]

theorem firstContaining_contains (ps : List PropertyBag) (n : String)
    (p : PropertyBag) (h : firstContaining ps n = some p) :
    p.contains n = true := by
  induction ps with
  | nil => cases h
  | cons q rest ih =>
      simp only [firstContaining] at h
      by_cases hq : q.contains n = true
      · rw [if_pos hq] at h
        cases h
        exact hq
      · rw [if_neg hq] at h
        exact ih h



/-- Counterexample to C6 as stated: in `["m =", "  x", "    y"]` the line
`y` is nested under `m` (below `x`), yet the parsed value of `m` is
`"x"`, not the claimed join `"x y"` of every nested line. -/
theorem multiline_not_all_nested_lines :
    ((parseLines c6deepLines).bind (fun r => r.1.getitem "m")).map
        PropertyBag.value = some "x" ∧ ("x" : String) ≠ "x y" := by
  refine ⟨by rw [c6deepParse]; decide, by decide⟩

/-- Claim C6, amended: A line ending in `=` with no value on the same line
takes exactly the texts of its *immediately* nested lines (its direct
children in the shape tree), joined in original order with single spaces,
as its value — deeper-nested lines are dropped — and those lines
contribute no child structure; in particular
`parse ["m =", "  x", "  y"]` yields one child `m` valued `"x y"` with no
children. -/
theorem multiline_joins_immediate_children :
    (∀ (ind : Int) (txt : String) (cs : List IndentationTree)
        (parent : PropertyBag) (ps abss : List PropertyBag)
        (ws : List String) (m : LineMatch),
        lineMatch txt = some m → m.hasEquals = true → m.valueCap = none →
        processNode (.mk ind txt cs) ⟨parent :: ps, abss, ws⟩ =
          some ⟨parent.add (.mk
              (if pyStrip m.rawName = "" then toString parent.count
               else pyStrip m.rawName) (joinTexts cs "") [] []) :: ps,
            abss, ws⟩) ∧
    ((parseLines c6flatLines).bind (fun r => r.1.getitem "m")).map
        (fun b => (b.value, b.children.isEmpty)) = some ("x y", true) := by
  refine ⟨?_, by rw [c6flatParse]; decide⟩
  intro ind txt cs parent ps abss ws m hm he hv
  simp [processNode, hm, he, hv]

/-- Witness for the amended C6: the line `m =` with the single nested
line `x`. -/
theorem multiline_joins_immediate_children_witness :
    lineMatch "m =" = some ⟨false, "m ", true, none, []⟩ ∧
    processNode (.mk 0 "m =" [.mk 1 "x" []])
        ⟨[.mk "root" "" [] []], [freshHolder], []⟩ =
      some ⟨(PropertyBag.mk "root" "" [] []).add (.mk
          (if pyStrip "m " = ""
           then toString (PropertyBag.mk "root" "" [] []).count
           else pyStrip "m ") (joinTexts [.mk 1 "x" []] "") [] []) :: [],
        [freshHolder], []⟩ :=
  ⟨rfl,
   multiline_joins_immediate_children.1 0 "m =" [.mk 1 "x" []]
     (.mk "root" "" [] []) [] [freshHolder] []
     ⟨false, "m ", true, none, []⟩ rfl rfl rfl⟩

/-- An unresolvable inheritance clause is skipped: the base list is the
one of the same declaration without the clause, and the clause's name is
recorded among the warnings. -/
theorem resolveBases_skip (parents abstracts : List PropertyBag)
    (bn : String) (h : resolveBase parents abstracts bn = none)
    (ns1 ns2 : List String) :
    (resolveBases parents abstracts (ns1 ++ bn :: ns2)).1 =
      (resolveBases parents abstracts (ns1 ++ ns2)).1 ∧
    bn ∈ (resolveBases parents abstracts (ns1 ++ bn :: ns2)).2 := by
  induction ns1 with
  | nil =>
      simp [resolveBases, h]
  | cons n rest ih =>
      obtain ⟨ih1, ih2⟩ := ih
      simp only [List.cons_append, resolveBases]
      cases hrn : resolveBase parents abstracts n <;> simp [hrn, ih1, ih2]

/-- Claim C8: An inheritance clause whose base name resolves nowhere does
not abort the parse: the name is omitted from the base list and recorded
as a warning (stated generally through `resolveBases`), and on the
concrete input `["a", "b :: missing", "  c = 1"]` the parse succeeds with
the warning `"missing"`, `b` without bases, and the rest (`a`, `c = 1`)
produced as normal. -/
theorem unresolved_base_degrades :
    (∀ (parents abstracts : List PropertyBag) (bn : String)
        (ns1 ns2 : List String),
        resolveBase parents abstracts bn = none →
        (resolveBases parents abstracts (ns1 ++ bn :: ns2)).1 =
          (resolveBases parents abstracts (ns1 ++ ns2)).1 ∧
        bn ∈ (resolveBases parents abstracts (ns1 ++ bn :: ns2)).2) ∧
    parseLines c8lines = some (c8root, ["missing"]) ∧
    ((parseLines c8lines).bind (fun r => r.1.getitem "b")).map
        (fun b => b.bases.isEmpty) = some true ∧
    ((parseLines c8lines).bind (fun r => childAt r.1 ["b", "c"])).map
        PropertyBag.value = some "1" ∧
    ((parseLines c8lines).bind (fun r => r.1.getitem "a")).map
        PropertyBag.name = some "a" := by
  refine ⟨?_, c8parse, by rw [c8parse]; decide, by rw [c8parse]; decide,
          by rw [c8parse]; decide⟩
  intro parents abstracts bn ns1 ns2 h
  exact resolveBases_skip parents abstracts bn h ns1 ns2

/-- Witness for C8: a clause naming `zz` with empty scope stacks. -/
theorem unresolved_base_degrades_witness :
    resolveBase [] [] "zz" = none ∧
    ((resolveBases [] [] ([] ++ "zz" :: [])).1 =
      (resolveBases [] [] ([] ++ [])).1 ∧
     "zz" ∈ (resolveBases [] [] ([] ++ "zz" :: [])).2) :=
  ⟨rfl, unresolved_base_degrades.1 [] [] "zz" [] [] rfl⟩

/-- The pop loop pops exactly the open lines whose indent is `≥` the new
line's indent and cannot run past the sentinel: the surviving indents are
the `dropWhile` of the old ones, so the new top is the nearest preceding
open line with a strictly smaller indent. -/
theorem popGE_dropWhile (i : Int) (hi : 0 ≤ i) :
    ∀ (rest : List Frame) (f : Frame),
      sentinelAtBottom (f :: rest) →
      ∃ res, popGE i f rest = some res ∧
        stackIndents res =
          (stackIndents (f :: rest)).dropWhile (fun d => i ≤ d) ∧
        sentinelAtBottom res := by
  intro rest
  induction rest with
  | nil =>
      intro f hsent
      have hf : f.indent = -1 := by
        simp [sentinelAtBottom, stackIndents] at hsent
        exact hsent
      have hni : ¬ i ≤ f.indent := by omega
      rw [popGE, if_neg hni]
      refine ⟨[f], rfl, ?_, hsent⟩
      simp [stackIndents, List.dropWhile, hni]
  | cons g rest' ih =>
      intro f hsent
      by_cases hfi : i ≤ f.indent
      · rw [popGE, if_pos hfi]
        have hsent' : sentinelAtBottom (g.addChild f.toTree :: rest') := by
          simp only [sentinelAtBottom, stackIndents, List.map] at hsent ⊢
          rw [List.getLast?_cons_cons] at hsent
          simpa [Frame.addChild] using hsent
        obtain ⟨res, hres, hind, hsb⟩ := ih (g.addChild f.toTree) hsent'
        refine ⟨res, hres, ?_, hsb⟩
        rw [hind]
        simp [stackIndents, List.dropWhile, hfi, Frame.addChild]
      · rw [popGE, if_neg hfi]
        refine ⟨f :: g :: rest', rfl, ?_, hsent⟩
        simp [stackIndents, List.dropWhile, hfi]

/-- Normalization gives every child the depth of its parent plus one,
whatever the raw indents were. -/
theorem depthOK_normalize :
    ∀ (N : Nat) (t : IndentationTree) (cur : Int),
      sizeOf t ≤ N → depthOK (IndentationTree.normalize t cur) = true := by
  intro N
  induction N with
  | zero =>
      intro t cur h
      cases t with
      | mk ind txt cs => simp at h
  | succ N ih =>
      intro t cur h
      cases t with
      | mk ind txt cs =>
          have hcs : ∀ t' ∈ cs, sizeOf t' ≤ N := by
            intro t' hm
            have h1 := List.sizeOf_lt_of_mem hm
            simp at h
            omega
          simp only [IndentationTree.normalize, depthOK]
          have hlist :
              ∀ (cs' : List IndentationTree),
                (∀ t' ∈ cs', sizeOf t' ≤ N) → ∀ d : Int,
                depthListOK (IndentationTree.normalizeList cs' d) d = true := by
            intro cs'
            induction cs' with
            | nil => intro _ d; rfl
            | cons t0 ts ihl =>
                intro hmem d
                simp only [IndentationTree.normalizeList, depthListOK,
                           Bool.and_eq_true]
                refine ⟨⟨?_, ?_⟩, ihl (fun t' ht' => hmem t'
                  (List.mem_cons_of_mem _ ht')) d⟩
                · cases t0 with
                  | mk a b c =>
                      simp [IndentationTree.normalize, IndentationTree.indent]
                · exact ih t0 d (hmem t0 (List.mem_cons_self _ _))
          exact hlist cs hcs (cur + 1)

/-- A matched line's raw indent is non-negative (it is the length of the
leading whitespace run). -/
theorem indentMatch_nonneg (l : String) (ind : Int) (txt : String)
    (h : indentMatch l = some (ind, txt)) : 0 ≤ ind := by
  simp only [indentMatch] at h
  split at h
  · cases h
    exact Int.ofNat_nonneg _
  · cases h
    exact Int.ofNat_nonneg _
  · cases h

/-- On lines the indent regex matches, the line loop never fails and
keeps the sentinel at the bottom of the stack. -/
theorem runLines_total :
    ∀ (lines : List String) (f : Frame) (rest : List Frame),
      (∀ l ∈ lines, (indentMatch l).isSome = true) →
      sentinelAtBottom (f :: rest) →
      ∃ f' rest', runLines lines (f :: rest) = some (f' :: rest') ∧
        sentinelAtBottom (f' :: rest') := by
  intro lines
  induction lines with
  | nil => intro f rest _ h; exact ⟨f, rest, rfl, h⟩
  | cons l ls ih =>
      intro f rest hm h
      have hl : (indentMatch l).isSome = true := hm l (List.mem_cons_self _ _)
      cases hmatch : indentMatch l with
      | none => rw [hmatch] at hl; simp at hl
      | some p =>
          obtain ⟨ind, txt⟩ := p
          have hnn : 0 ≤ ind := indentMatch_nonneg l ind txt hmatch
          obtain ⟨res, hres, hind, hsb⟩ := popGE_dropWhile ind hnn rest f h
          cases res with
          | nil => simp [sentinelAtBottom, stackIndents] at hsb
          | cons r0 res' =>
              have hstep : stepLine (f :: rest) l =
                  some (⟨ind, txt, []⟩ :: r0 :: res') := by
                simp [stepLine, hmatch, hres]
              have hsent2 : sentinelAtBottom (⟨ind, txt, []⟩ :: r0 :: res') := by
                simp only [sentinelAtBottom, stackIndents, List.map] at hsb ⊢
                rw [List.getLast?_cons_cons]
                exact hsb
              obtain ⟨f', rest', hrun, hsb'⟩ :=
                ih _ _ (fun l' hl' => hm l' (List.mem_cons_of_mem _ hl')) hsent2
              refine ⟨f', rest', ?_, hsb'⟩
              simp only [runLines, hstep]
              exact hrun

/-- Counterexample to C9 as stated: the indent regex does not match every
possible line — a line with an interior newline, such as `"a\nb"`, is
not matched (`.` cannot cross the newline and `$` only accepts a final
one), and on such input the source raises a `TypeError` at
`matches['indent']`, modelled here by the parse returning `none`. -/
theorem indentation_parse_newline_fails :
    indentMatch "a\nb" = none ∧
    IndentationTree.parse ["a\nb"] = none := ⟨rfl, rfl⟩

/-- Claim C9, amended: for every finite sequence of lines each of which
the indent-splitting regex matches (every newline inside the leading
whitespace run or final — in particular every newline-free line, and the
whitespace run may be empty), `IndentationTree.parse` terminates and
never fails on stack access: every matched raw indent is `≥ 0` while the
sentinel root's indent is `-1`, so the pop loop always stops at or before
the sentinel and `stack[-1]` is always defined. -/
theorem indentation_parse_matched_total (lines : List String)
    (h : ∀ l ∈ lines, (indentMatch l).isSome = true) :
    (IndentationTree.parse lines).isSome = true := by
  obtain ⟨f', rest', hrun, hsb⟩ :=
    runLines_total lines ⟨-1, "", []⟩ [] h rfl
  simp [IndentationTree.parse, hrun]

/-- Witness for the amended C9: the single matchable line `"a"`. -/
theorem indentation_parse_matched_total_witness :
    (∀ l ∈ ["a"], (indentMatch l).isSome = true) ∧
    (IndentationTree.parse ["a"]).isSome = true :=
  ⟨by decide, indentation_parse_matched_total ["a"] (by decide)⟩

/-- Claim C7: The shape-tree builder pops the stack while its top's indent
is `≥` the new line's, attaching the new line under the nearest preceding
still-open line with a strictly smaller indent (the surviving indents are
exactly the `dropWhile` of the old stack's indents), and after
normalization every node's children sit at the node's depth plus one with
the sentinel root at `-1`, regardless of the absolute column widths. -/
theorem shape_tree_build_rule :
    (∀ (i : Int) (f : Frame) (rest : List Frame),
        0 ≤ i → sentinelAtBottom (f :: rest) →
        ∃ res, popGE i f rest = some res ∧
          stackIndents res =
            (stackIndents (f :: rest)).dropWhile (fun d => i ≤ d) ∧
          sentinelAtBottom res) ∧
    (∀ (lines : List String) (t : IndentationTree),
        IndentationTree.parse lines = some t →
        t.indent = -1 ∧ depthOK t = true) := by
  constructor
  · intro i f rest hi hs
    exact popGE_dropWhile i hi rest f hs
  · intro lines t hp
    simp only [IndentationTree.parse] at hp
    cases hr : runLines lines [⟨-1, "", []⟩] with
    | none => rw [hr] at hp; cases hp
    | some st =>
        rw [hr] at hp
        cases st with
        | nil => cases hp
        | cons f rest =>
            have ht : t = (finalizeStack f rest).normalize (-1) := by
              cases hp
              rfl
            subst ht
            constructor
            · cases hft : finalizeStack f rest with
              | mk a b c =>
                  simp [IndentationTree.normalize, IndentationTree.indent]
            · exact depthOK_normalize (sizeOf (finalizeStack f rest)) _ _
                (Nat.le_refl _)

/-- Witness for C7: the pop rule at indent `0` over the sentinel alone,
and the parse of the single line `"a"`. -/
theorem shape_tree_build_rule_witness :
    (0 : Int) ≤ 0 ∧
    sentinelAtBottom [(⟨-1, "", []⟩ : Frame)] ∧
    (∃ res, popGE 0 ⟨-1, "", []⟩ [] = some res ∧
      stackIndents res =
        (stackIndents [(⟨-1, "", []⟩ : Frame)]).dropWhile
          (fun d => (0 : Int) ≤ d) ∧
      sentinelAtBottom res) ∧
    IndentationTree.parse ["a"] = some (.mk (-1) "" [.mk 0 "a" []]) ∧
    ((IndentationTree.mk (-1) "" [.mk 0 "a" []]).indent = -1 ∧
     depthOK (.mk (-1) "" [.mk 0 "a" []]) = true) :=
  ⟨le_refl 0, rfl,
   shape_tree_build_rule.1 0 ⟨-1, "", []⟩ [] (le_refl 0) rfl,
   rfl,
   shape_tree_build_rule.2 ["a"] (.mk (-1) "" [.mk 0 "a" []]) rfl⟩

/-- Counterexample to C10 as stated: `"x"` is first cached as absent;
after `add` inserts `"x"` and sixteen other distinct names are queried,
the `maxsize=16` cache has evicted the entry, and the later call with the
same argument recomputes and returns `true` instead of the cached
`false`. -/
theorem lru_cache_not_permanent :
    (cachedContains ⟨.mk "p" "" [] [], [], []⟩ "x").1 = false ∧
    (cachedContains
        (runQueries
          (cachedAdd (cachedContains ⟨.mk "p" "" [] [], [], []⟩ "x").2
            (.mk "x" "" [] []))
          c10keys) "x").1 = true := by
  exact ⟨rfl, by decide⟩

/-- Claim C10, amended: Mutation never touches the caches: `add` leaves
both memo tables unchanged, and as long as an entry for the queried name
is still present (not yet evicted by the LRU policy, capacity 16 for
`__contains__` and 32 for `__getitem__`), the call returns the cached
result unchanged, however the bag has been mutated since. -/
theorem lru_cache_stale_until_evicted :
    (∀ (s : CachedBag) (c : PropertyBag),
        (cachedAdd s c).containsCache = s.containsCache ∧
        (cachedAdd s c).getitemCache = s.getitemCache) ∧
    (∀ (s : CachedBag) (k : String) (v : Bool),
        cacheFind s.containsCache k = some v →
        (cachedContains s k).1 = v) ∧
    (∀ (s : CachedBag) (k : String) (v : Option PropertyBag),
        cacheFind s.getitemCache k = some v →
        (cachedGetitem s k).1 = v) := by
  refine ⟨fun s c => ⟨rfl, rfl⟩, ?_, ?_⟩
  · intro s k v h
    simp [cachedContains, h]
  · intro s k v h
    simp [cachedGetitem, h]

/-- Witness for the amended C10: a bag that now contains `"x"` but whose
cache still holds the stale `false` keeps answering `false`. -/
theorem lru_cache_stale_until_evicted_witness :
    cacheFind
        (⟨.mk "p" "" [] [("x", .mk "x" "" [] [])], [("x", false)],
          []⟩ : CachedBag).containsCache "x" = some false ∧
    (cachedContains
        ⟨.mk "p" "" [] [("x", .mk "x" "" [] [])], [("x", false)], []⟩
        "x").1 = false :=
  ⟨rfl,
   lru_cache_stale_until_evicted.2.1
     ⟨.mk "p" "" [] [("x", .mk "x" "" [] [])], [("x", false)], []⟩
     "x" false rfl⟩

/-! # Lemmas about the live-object model -/

theorem cacheFindP_of_all {α : Type} (P : ((Nat × String) × α) → Bool)
    (l : List ((Nat × String) × α)) (h : l.all P = true)
    (k : Nat × String) (v : α) (hf : cacheFindP l k = some v) :
    P (k, v) = true := by
  induction l with
  | nil => cases hf
  | cons e rest ih =>
      obtain ⟨k', v'⟩ := e
      simp only [List.all_cons, Bool.and_eq_true] at h
      simp only [cacheFindP] at hf
      by_cases hk : k' = k
      · rw [if_pos hk] at hf
        cases hf
        subst hk
        exact h.1
      · rw [if_neg hk] at hf
        exact ih h.2 hf

theorem cacheEraseP_all {α : Type} (P : ((Nat × String) × α) → Bool)
    (l : List ((Nat × String) × α)) (h : l.all P = true) (k : Nat × String) :
    (cacheEraseP l k).all P = true := by
  induction l with
  | nil => rfl
  | cons e rest ih =>
      obtain ⟨k', v'⟩ := e
      simp only [List.all_cons, Bool.and_eq_true] at h
      simp only [cacheEraseP]
      by_cases hk : k' = k
      · rw [if_pos hk]
        exact h.2
      · rw [if_neg hk]
        simp only [List.all_cons, Bool.and_eq_true]
        exact ⟨h.1, ih h.2⟩

theorem take_all {α : Type} (P : α → Bool) (l : List α)
    (h : l.all P = true) (n : Nat) : (l.take n).all P = true := by
  rw [List.all_eq_true] at h ⊢
  intro x hx
  exact h x (List.mem_of_mem_take hx)

theorem dictLookupN_mem (m : List (String × Nat)) (k : String) (v : Nat)
    (h : dictLookupN m k = some v) : (k, v) ∈ m := by
  induction m with
  | nil => cases h
  | cons e rest ih =>
      obtain ⟨k', v'⟩ := e
      simp only [dictLookupN] at h
      by_cases hk : k' = k
      · rw [if_pos hk] at h
        cases h
        subst hk
        exact List.mem_cons_self _ _
      · rw [if_neg hk] at h
        exact List.mem_cons_of_mem _ (ih h)

theorem getElem?_mem_list {α : Type} (l : List α) (i : Nat) (a : α)
    (h : l[i]? = some a) : a ∈ l := by
  induction l generalizing i with
  | nil => cases h
  | cons x rest ih =>
      cases i with
      | zero =>
          simp only [List.getElem?_cons_zero] at h
          cases h
          exact List.mem_cons_self _ _
      | succ j =>
          simp only [List.getElem?_cons_succ] at h
          exact List.mem_cons_of_mem _ (ih j h)

theorem hstateWF_fields (st st' : HState) (hh : st'.heap = st.heap)
    (hg : st'.gCache = st.gCache) : hstateWF st' = hstateWF st := by
  cases st
  cases st'
  simp only at hh hg
  subst hh
  subst hg
  rfl

theorem cachedContainsH_state (fuel : Nat) (st : HState) (r : Nat)
    (n : String) :
    (cachedContainsH fuel st r n).2.heap = st.heap ∧
    (cachedContainsH fuel st r n).2.gCache = st.gCache := by
  cases hf : cacheFindP st.cCache (r, n) <;> simp [cachedContainsH, hf]

/-- Queries through the decorated `__getitem__` never touch the heap,
keep the state's references below the allocation frontier, and only ever
answer with a reference below it. -/
theorem cachedGetitemH_bounded :
    ∀ fuel : Nat,
      (∀ (st : HState) (r : Nat) (n : String), hstateWF st = true →
        (cachedGetitemH fuel st r n).2.heap = st.heap ∧
        hstateWF (cachedGetitemH fuel st r n).2 = true ∧
        ∀ b, (cachedGetitemH fuel st r n).1 = some b →
          b < st.heap.length) ∧
      (∀ (st : HState) (bs : List Nat) (n : String), hstateWF st = true →
        (getitemBasesH fuel st bs n).2.heap = st.heap ∧
        hstateWF (getitemBasesH fuel st bs n).2 = true ∧
        ∀ b, (getitemBasesH fuel st bs n).1 = some b →
          b < st.heap.length) := by
  intro fuel
  induction fuel with
  | zero =>
      constructor
      · intro st r n h
        refine ⟨rfl, h, ?_⟩
        intro b hb
        simp [cachedGetitemH] at hb
      · intro st bs n h
        refine ⟨rfl, h, ?_⟩
        intro b hb
        simp [getitemBasesH] at hb
  | succ fuel ih =>
      constructor
      · intro st r n h
        have hWF := h
        simp only [hstateWF, Bool.and_eq_true] at hWF
        obtain ⟨hheap, hg⟩ := hWF
        simp only [cachedGetitemH]
        cases hf : cacheFindP st.gCache (r, n) with
        | some v =>
            refine ⟨rfl, ?_, ?_⟩
            · simp only [hstateWF, Bool.and_eq_true]
              refine ⟨hheap, ?_⟩
              simp only [List.all_cons, Bool.and_eq_true]
              exact ⟨cacheFindP_of_all _ _ hg _ _ hf, cacheEraseP_all _ _ hg _⟩
            · intro b hb
              simp only at hb
              subst hb
              have hp := cacheFindP_of_all _ _ hg _ _ hf
              simpa using hp
        | none =>
            cases hp : st.heap[r]? with
            | none =>
                simp only [hp]
                refine ⟨trivial, ?_, ?_⟩
                · simp only [hstateWF, Bool.and_eq_true]
                  refine ⟨hheap, ?_⟩
                  refine take_all _ _ ?_ _
                  simp only [List.all_cons, Bool.and_eq_true]
                  exact ⟨trivial, hg⟩
                · intro b hb
                  exact Option.noConfusion hb
            | some b0 =>
                have hb0 : hbagWF st.heap.length b0 = true := by
                  rw [List.all_eq_true] at hheap
                  exact hheap b0 (getElem?_mem_list _ _ _ hp)
                simp only [hbagWF, Bool.and_eq_true] at hb0
                obtain ⟨hb1, hb2⟩ := hb0
                cases hc : dictLookupN b0.children n with
                | some c =>
                    have hcb : c < st.heap.length := by
                      rw [List.all_eq_true] at hb2
                      have := hb2 (n, c) (dictLookupN_mem _ _ _ hc)
                      simpa using this
                    simp only [hp, hc]
                    refine ⟨trivial, ?_, ?_⟩
                    · simp only [hstateWF, Bool.and_eq_true]
                      refine ⟨hheap, ?_⟩
                      refine take_all _ _ ?_ _
                      simp only [List.all_cons, Bool.and_eq_true]
                      exact ⟨by simpa using hcb, hg⟩
                    · intro b hb
                      have hb2 : c = b := Option.some.inj hb
                      exact hb2 ▸ hcb
                | none =>
                    obtain ⟨g1, g2, g3⟩ := ih.2 st b0.bases.reverse n h
                    simp only [hp, hc]
                    refine ⟨g1, ?_, ?_⟩
                    · have hWF2 := g2
                      simp only [hstateWF, Bool.and_eq_true, g1] at hWF2
                      obtain ⟨hh2, hg2⟩ := hWF2
                      simp only [hstateWF, Bool.and_eq_true, g1]
                      refine ⟨hh2, ?_⟩
                      refine take_all _ _ ?_ _
                      simp only [List.all_cons, Bool.and_eq_true]
                      constructor
                      · cases hr : (getitemBasesH fuel st b0.bases.reverse n).1 with
                        | none => simp
                        | some b => simpa using g3 b hr
                      · exact hg2
                    · intro b hb
                      exact g3 b hb
      · intro st bs n h
        cases bs with
        | nil =>
            refine ⟨rfl, h, ?_⟩
            intro b hb
            simp [getitemBasesH] at hb
        | cons br rest =>
            simp only [getitemBasesH]
            have hcs := cachedContainsH_state (Nat.succ fuel) st br n
            have hWFcv :
                hstateWF (cachedContainsH (Nat.succ fuel) st br n).2 = true := by
              rw [hstateWF_fields _ _ hcs.1 hcs.2]
              exact h
            by_cases hcv : (cachedContainsH (Nat.succ fuel) st br n).1 = true
            · rw [if_pos hcv]
              obtain ⟨g1, g2, g3⟩ :=
                ih.1 (cachedContainsH (Nat.succ fuel) st br n).2 br n hWFcv
              refine ⟨g1.trans hcs.1, g2, ?_⟩
              intro b hb
              have := g3 b hb
              rwa [hcs.1] at this
            · rw [if_neg hcv]
              obtain ⟨g1, g2, g3⟩ :=
                ih.2 (cachedContainsH (Nat.succ fuel) st br n).2 rest n hWFcv
              refine ⟨g1.trans hcs.1, g2, ?_⟩
              intro b hb
              have := g3 b hb
              rwa [hcs.1] at this

/-- The resolution scan never touches the heap, keeps the state bounded
and answers only with already-allocated references. -/
theorem resolveScanH_bounded (fuel : Nat) :
    ∀ (refs : List Nat) (st : HState) (n : String), hstateWF st = true →
      (resolveScanH fuel st refs n).2.heap = st.heap ∧
      hstateWF (resolveScanH fuel st refs n).2 = true ∧
      ∀ b, (resolveScanH fuel st refs n).1 = some b →
        b < st.heap.length := by
  intro refs
  induction refs with
  | nil =>
      intro st n h
      refine ⟨rfl, h, ?_⟩
      intro b hb
      simp [resolveScanH] at hb
  | cons p rest ih =>
      intro st n h
      simp only [resolveScanH]
      have hcs := cachedContainsH_state fuel st p n
      have hWFcv : hstateWF (cachedContainsH fuel st p n).2 = true := by
        rw [hstateWF_fields _ _ hcs.1 hcs.2]
        exact h
      by_cases hcv : (cachedContainsH fuel st p n).1 = true
      · rw [if_pos hcv]
        obtain ⟨g1, g2, g3⟩ :=
          (cachedGetitemH_bounded fuel).1 (cachedContainsH fuel st p n).2 p n hWFcv
        refine ⟨g1.trans hcs.1, g2, ?_⟩
        intro b hb
        have := g3 b hb
        rwa [hcs.1] at this
      · rw [if_neg hcv]
        obtain ⟨g1, g2, g3⟩ := ih (cachedContainsH fuel st p n).2 n hWFcv
        refine ⟨g1.trans hcs.1, g2, ?_⟩
        intro b hb
        have := g3 b hb
        rwa [hcs.1] at this

/-- Clause resolution never touches the heap and binds only
already-allocated bags. -/
theorem resolveBaseC_bounded (fuel : Nat) (st : HState)
    (parents abstracts : List Nat) (n : String) (h : hstateWF st = true) :
    (resolveBaseC fuel st parents abstracts n).2.heap = st.heap ∧
    hstateWF (resolveBaseC fuel st parents abstracts n).2 = true ∧
    ∀ b, (resolveBaseC fuel st parents abstracts n).1 = some b →
      b < st.heap.length := by
  simp only [resolveBaseC]
  obtain ⟨g1, g2, g3⟩ := resolveScanH_bounded fuel parents st n h
  cases hc : (resolveScanH fuel st parents n).1 with
  | some bp =>
      refine ⟨g1, g2, ?_⟩
      intro b hb
      have hb2 : bp = b := Option.some.inj hb
      exact hb2 ▸ g3 bp hc
  | none =>
      obtain ⟨a1, a2, a3⟩ :=
        resolveScanH_bounded fuel abstracts (resolveScanH fuel st parents n).2 n g2
      refine ⟨a1.trans g1, a2, ?_⟩
      intro b hb
      have := a3 b hb
      rwa [g1] at this

/-- The whole clause-list resolution of a collection declaration leaves
the heap unchanged and produces only already-allocated bases; the
declaration's own bag, allocated afterwards at the frontier, can never be
among them. -/
theorem resolveBasesC_bounded (fuel : Nat) (parents abstracts : List Nat) :
    ∀ (ns : List String) (st : HState), hstateWF st = true →
      (resolveBasesC fuel parents abstracts st ns).2.2.heap = st.heap ∧
      ∀ b ∈ (resolveBasesC fuel parents abstracts st ns).1,
        b < st.heap.length := by
  intro ns
  induction ns with
  | nil =>
      intro st h
      exact ⟨rfl, by intro b hb; cases hb⟩
  | cons n rest ih =>
      intro st h
      simp only [resolveBasesC]
      obtain ⟨r1, r2, r3⟩ := resolveBaseC_bounded fuel st parents abstracts n h
      obtain ⟨t1, t2⟩ := ih (resolveBaseC fuel st parents abstracts n).2 r2
      cases hr : (resolveBaseC fuel st parents abstracts n).1 with
      | some b0 =>
          simp only
          constructor
          · rw [t1, r1]
          · intro b hb
            simp only [List.mem_cons] at hb
            cases hb with
            | inl hb => subst hb; exact r3 b hr
            | inr hb =>
                have := t2 b hb
                rwa [r1] at this
      | none =>
          simp only
          constructor
          · rw [t1, r1]
          · intro b hb
            have := t2 b hb
            rwa [r1] at this

/-! # The cached membership and resolution laws (shared lemmas) -/

theorem cachedContainsH_hit (fuel : Nat) (st : HState) (r : Nat)
    (item : String) (v : Bool)
    (h : cacheFindP st.cCache (r, item) = some v) :
    (cachedContainsH fuel st r item).1 = v := by
  simp [cachedContainsH, h]

theorem cachedContainsH_miss (fuel : Nat) (st : HState) (r : Nat)
    (item : String) (h : cacheFindP st.cCache (r, item) = none) :
    (cachedContainsH fuel st r item).1 =
      containsFreshH st.heap fuel r item := by
  simp [cachedContainsH, h]

theorem resolveScanH_take (fuel : Nat) (st : HState) (p : Nat)
    (rest : List Nat) (n : String)
    (h : (cachedContainsH fuel st p n).1 = true) :
    resolveScanH fuel st (p :: rest) n =
      cachedGetitemH fuel (cachedContainsH fuel st p n).2 p n := by
  simp only [resolveScanH]
  rw [if_pos h]

theorem resolveScanH_skipStep (fuel : Nat) (st : HState) (p : Nat)
    (rest : List Nat) (n : String)
    (h : (cachedContainsH fuel st p n).1 = false) :
    resolveScanH fuel st (p :: rest) n =
      resolveScanH fuel (cachedContainsH fuel st p n).2 rest n := by
  simp only [resolveScanH]
  rw [if_neg (by simp [h])]

theorem resolveBaseC_fallback (fuel : Nat) (st : HState)
    (parents abstracts : List Nat) (n : String)
    (h : (resolveScanH fuel st parents n).1 = none) :
    resolveBaseC fuel st parents abstracts n =
      resolveScanH fuel (resolveScanH fuel st parents n).2 abstracts n := by
  simp [resolveBaseC, h]

theorem resolveBaseC_stop (fuel : Nat) (st : HState)
    (parents abstracts : List Nat) (n : String) (b : Nat)
    (h : (resolveScanH fuel st parents n).1 = some b) :
    resolveBaseC fuel st parents abstracts n =
      (some b, (resolveScanH fuel st parents n).2) := by
  simp [resolveBaseC, h]

/-! # Claims C2 through C5 over the live cached model -/

/-- Counterexample to C2 as stated: when `c :: foo` of `c2lines` is
resolved, no concrete ancestor has `foo` among its direct children — the
direct-children search the claim describes (`resolveBaseByChildren`)
finds nothing, and in the final live heap neither ancestor (`b`,
reference 7, nor the root) has a direct child `foo` — yet the parsed `c`
carries the base `foo` (reference 4), found through `b`'s flattened
view.  And even flattened membership is not the rule: in `c2badLines`
the name `x` is a direct child of the root when `c :: x` is resolved,
yet `c` ends up with no bases at all, because the `lru_cache` of
`__contains__` replays the stale `False` recorded when `b :: x`
failed. -/
theorem cached_resolution_counterexample :
    (resolveBaseByChildren c2parents c2abstracts "foo").isNone = true ∧
    ((parseLinesC c2lines).map (fun r =>
        (((childRefAt r.1 0 ["b", "c"]).bind (hbagAt r.1)).map HBag.bases,
         (hbagAt r.1 4).map HBag.name)) = some (some [4], some "foo")) ∧
    ((parseLinesC c2lines).map (fun r =>
        ((hbagAt r.1 7).map (fun h => (dictLookupN h.children "foo").isNone),
         (hbagAt r.1 0).map (fun h =>
           (dictLookupN h.children "foo").isNone))) =
      some (some true, some true)) ∧
    ((parseLinesC c2badLines).map (fun r =>
        ((childRefAt r.1 0 ["x"]).isSome,
         ((childRefAt r.1 0 ["c"]).bind (hbagAt r.1)).map HBag.bases,
         r.2)) = some (true, some [], ["x", "x"])) := by
  refine ⟨by decide, by rw [c2parseC]; decide, by rw [c2parseC]; decide,
    by decide⟩

/-- Claim C2, amended: every membership test of the resolution scan goes
through the `lru_cache` of `__contains__` — a cached answer for that
live object and name, however stale, is replayed verbatim, and only on a
cache miss is membership computed fresh against the object's flattened
view.  The scan walks the concrete ancestor stack innermost-first,
stopping at the first parent whose cached test says true and answering
with that parent's decorated `__getitem__`; only when the whole concrete
scan yields nothing is the abstract holder stack walked the same way.
On `c2lines` this resolves `c :: foo` through the ancestor `b`'s
flattened view to the bag `foo` (reference 4). -/
theorem resolution_order_cached :
    (∀ (fuel : Nat) (st : HState) (r : Nat) (n : String) (v : Bool),
        cacheFindP st.cCache (r, n) = some v →
        (cachedContainsH fuel st r n).1 = v) ∧
    (∀ (fuel : Nat) (st : HState) (r : Nat) (n : String),
        cacheFindP st.cCache (r, n) = none →
        (cachedContainsH fuel st r n).1 =
          containsFreshH st.heap fuel r n) ∧
    (∀ (fuel : Nat) (st : HState) (p : Nat) (rest : List Nat) (n : String),
        (cachedContainsH fuel st p n).1 = true →
        resolveScanH fuel st (p :: rest) n =
          cachedGetitemH fuel (cachedContainsH fuel st p n).2 p n) ∧
    (∀ (fuel : Nat) (st : HState) (p : Nat) (rest : List Nat) (n : String),
        (cachedContainsH fuel st p n).1 = false →
        resolveScanH fuel st (p :: rest) n =
          resolveScanH fuel (cachedContainsH fuel st p n).2 rest n) ∧
    (∀ (fuel : Nat) (st : HState) (parents abstracts : List Nat)
        (n : String),
        (resolveScanH fuel st parents n).1 = none →
        resolveBaseC fuel st parents abstracts n =
          resolveScanH fuel (resolveScanH fuel st parents n).2 abstracts n) ∧
    (∀ (fuel : Nat) (st : HState) (parents abstracts : List Nat)
        (n : String) (b : Nat),
        (resolveScanH fuel st parents n).1 = some b →
        resolveBaseC fuel st parents abstracts n =
          (some b, (resolveScanH fuel st parents n).2)) ∧
    ((parseLinesC c2lines).map (fun r =>
        (((childRefAt r.1 0 ["b", "c"]).bind (hbagAt r.1)).map HBag.bases,
         (hbagAt r.1 4).map HBag.name,
         r.2)) = some (some [4], some "foo", [])) :=
  ⟨cachedContainsH_hit, cachedContainsH_miss, resolveScanH_take,
   resolveScanH_skipStep, resolveBaseC_fallback, resolveBaseC_stop,
   by rw [c2parseC]; decide⟩

/-- Witness for C2: the cached laws instantiated on the two-bag heap —
the stale `False` is replayed, a clean miss computes fresh membership,
the scan stops at a containing parent and skips past a non-containing
one, an empty concrete scan falls through to the abstract stack, and a
successful scan ends the resolution. -/
theorem resolution_order_cached_witness :
    cacheFindP wstStale.cCache (0, "t") = some false ∧
    (cachedContainsH 3 wstStale 0 "t").1 = false ∧
    (cachedContainsH 3 wst 0 "t").1 = containsFreshH wst.heap 3 0 "t" ∧
    resolveScanH 3 wst (0 :: []) "t" =
      cachedGetitemH 3 (cachedContainsH 3 wst 0 "t").2 0 "t" ∧
    resolveScanH 3 wst (0 :: []) "z" =
      resolveScanH 3 (cachedContainsH 3 wst 0 "z").2 [] "z" ∧
    resolveBaseC 3 wst [] [0] "t" =
      resolveScanH 3 (resolveScanH 3 wst [] "t").2 [0] "t" ∧
    resolveBaseC 3 wst [0] [] "t" =
      (some 1, (resolveScanH 3 wst [0] "t").2) :=
  ⟨by decide,
   resolution_order_cached.1 3 wstStale 0 "t" false (by decide),
   resolution_order_cached.2.1 3 wst 0 "t" (by decide),
   resolution_order_cached.2.2.1 3 wst 0 [] "t" (by decide),
   resolution_order_cached.2.2.2.1 3 wst 0 [] "z" (by decide),
   resolution_order_cached.2.2.2.2.1 3 wst [] [0] "t" (by decide),
   resolution_order_cached.2.2.2.2.2.1 3 wst [0] [] "t" 1 (by decide)⟩

/-- Counterexample to C3 as stated: in `c3badLines` the clause `foo ::`
under `a` synthesizes the name `foo`, and a root-level bag `foo` exists
in an enclosing scope — yet the parse binds nothing: the `lru_cache` of
`__contains__` replays the stale `False` recorded at `b :: foo` (before
`foo` was declared), so the new bag ends with no bases instead of the
ancestor binding the claim promises. -/
theorem cached_selfname_poisoned_foo :
    (parseLinesC c3badLines).map (fun r =>
        ((childRefAt r.1 0 ["foo"]).isSome,
         ((childRefAt r.1 0 ["a", "foo"]).bind (hbagAt r.1)).map HBag.bases,
         r.2)) = some (true, some [], ["foo", "foo"]) := by decide

/-- Claim C3, amended: an empty inheritance clause synthesizes the
declaration's own name (`inherit.strip() or name`); resolution can never
bind the bag being defined, because that bag is allocated at the heap
frontier only after its clauses are resolved while resolution answers
only references strictly below the frontier; and on the repository's own
example both `foo ::` declarations bind the root-level ancestor `foo`
(reference 2), never themselves (references 7 and 12): `a`'s copy keeps
its overriding `bar` while `b`'s copy inherits `bar = "in base"` through
the base. -/
theorem selfNamed_inheritance :
    (∀ declName raw, pyStrip raw = "" → inheritName declName raw = declName) ∧
    (∀ (fuel : Nat) (parents abstracts : List Nat) (ns : List String)
        (st : HState) (bag : HBag), hstateWF st = true →
        ∀ b ∈ (resolveBasesC fuel parents abstracts st ns).1,
          b < (allocH (resolveBasesC fuel parents abstracts st ns).2.2
                bag).1) ∧
    ((parseLinesC c3lines).map (fun r =>
        (childRefAt r.1 0 ["foo"],
         childRefAt r.1 0 ["a", "foo"],
         ((childRefAt r.1 0 ["a", "foo"]).bind (hbagAt r.1)).map
           HBag.bases)) = some (some 2, some 7, some [2])) ∧
    ((parseLinesC c3lines).map (fun r =>
        (childRefAt r.1 0 ["b", "foo"],
         ((childRefAt r.1 0 ["b", "foo"]).bind (hbagAt r.1)).map
           HBag.bases)) = some (some 12, some [2])) ∧
    ((parseLinesC c3lines).map (fun r =>
        (((cachedGetitemH 20 r.1 12 "bar").1.bind (hbagAt r.1)).map
           HBag.value,
         (((hbagAt r.1 7).bind (fun f => dictLookupN f.children "bar")).bind
            (hbagAt r.1)).map HBag.value)) =
      some (some "in base", some "overridden")) := by
  refine ⟨?_, ?_, by rw [c3parseC]; decide, by rw [c3parseC]; decide,
    by rw [c3parseC]; decide⟩
  · intro declName raw h
    simp [inheritName, h]
  · intro fuel parents abstracts ns st bag h
    obtain ⟨h1, h2⟩ := resolveBasesC_bounded fuel parents abstracts ns st h
    intro b hb
    have hlt := h2 b hb
    show b < (resolveBasesC fuel parents abstracts st ns).2.2.heap.length
    rw [h1]
    exact hlt

/-- Witness for C3: the synthesized name of `foo ::` is `foo`, and on a
concrete state every resolved base of a clause list lies below the
post-resolution allocation frontier at which the new bag is created. -/
theorem selfNamed_inheritance_witness :
    pyStrip "" = "" ∧ inheritName "foo" "" = "foo" ∧
    hstateWF ⟨[], [], []⟩ = true ∧
    (∀ b ∈ (resolveBasesC 1 [] [] ⟨[], [], []⟩ ["foo"]).1,
      b < (allocH (resolveBasesC 1 [] [] ⟨[], [], []⟩ ["foo"]).2.2
            ⟨"foo", "", [], []⟩).1) :=
  ⟨rfl, selfNamed_inheritance.1 "foo" "" rfl, rfl,
   selfNamed_inheritance.2.1 1 [] [] ["foo"] ⟨[], [], []⟩
     ⟨"foo", "", [], []⟩ rfl⟩

/-- Counterexample to C4 as stated, of the methods as implemented (with
their `lru_cache` decorators): after the membership test for `x` is
evaluated on an empty bag (caching `False`) and a child `x` is then
added, the indexer computes fresh and finds the child while the
membership test still replays the stale `False` — they disagree. -/
theorem cached_contains_getitem_disagree :
    ((cachedGetitem (cachedAdd
        (cachedContains ⟨PropertyBag.mk "p" "" [] [], [], []⟩ "x").2
        (PropertyBag.mk "x" "1" [] [])) "x").1).isSome = true ∧
    (cachedContains (cachedAdd
        (cachedContains ⟨PropertyBag.mk "p" "" [] [], [], []⟩ "x").2
        (PropertyBag.mk "x" "1" [] [])) "x").1 = false := by decide

/-- Claim C4, amended: the equivalence holds of the undecorated bodies —
a fresh membership test is true exactly when a fresh lookup returns a
bag — and of the decorated methods whenever neither `lru_cache` holds an
entry for the queried name; a stale entry on one side can break it (see
the counterexample). -/
theorem contains_iff_getitem :
    (∀ (b : PropertyBag) (k : String),
        PropertyBag.contains b k = true ↔ PropertyBag.getitem b k ≠ none) ∧
    (∀ (s : CachedBag) (k : String),
        cacheFind s.containsCache k = none →
        cacheFind s.getitemCache k = none →
        ((cachedContains s k).1 = true ↔ (cachedGetitem s k).1 ≠ none)) := by
  have base : ∀ (b : PropertyBag) (k : String),
      PropertyBag.contains b k = true ↔ PropertyBag.getitem b k ≠ none := by
    intro b k
    rw [contains_eq_isSome_getitem]
    cases PropertyBag.getitem b k <;> simp
  refine ⟨base, ?_⟩
  intro s k hc hg
  simp only [cachedContains, cachedGetitem, hc, hg]
  exact base s.bag k

/-- Witness for C4: on a fresh cached bag (both caches empty) the
decorated membership test and indexer agree on `x`. -/
theorem contains_iff_getitem_witness :
    cacheFind (([] : List (String × Bool))) "x" = none ∧
    ((cachedContains ⟨PropertyBag.mk "p" "" [] [], [], []⟩ "x").1 = true ↔
      (cachedGetitem ⟨PropertyBag.mk "p" "" [] [], [], []⟩ "x").1 ≠ none) :=
  ⟨rfl,
   contains_iff_getitem.2 ⟨PropertyBag.mk "p" "" [] [], [], []⟩ "x" rfl rfl⟩

/-- Counterexample to C5 as stated: in `c5badLines` the abstract `:: t`
is duly registered in the holder (reference 1), yet the later `c :: t`
does not resolve it: `b :: t` had already cached `False` for the holder
and the name `t`, the `lru_cache` replays that stale answer, and `c`
ends with no bases — the abstract bag did not remain resolvable. -/
theorem cached_abstract_poisoned_t :
    (parseLinesC c5badLines).map (fun r =>
        ((hbagAt r.1 1).map (fun h => (dictLookupN h.children "t").isSome),
         ((childRefAt r.1 0 ["c"]).bind (hbagAt r.1)).map HBag.bases,
         r.2)) = some (some true, some [], ["t", "t"]) := by decide

/-- Claim C5, amended: a declaration beginning with `::` goes into the
current level's abstract holder while the concrete parent stack comes
back unchanged (the general placement law over one parse step); the bag
is then found by a later clause whenever the holder's membership is
computed fresh — a cache miss tests the holder's flattened view, which
now holds the bag — as on `c5lines`, where the abstract `a` and `b` stay
out of the root's children and `c :: a :: b` binds both (references 2
and 6); a stale cached `False` for the holder defeats the resolution
(see the counterexample). -/
theorem abstract_declaration_scope :
    (∀ (ind : Int) (txt : String) (cs : List IndentationTree)
        (parent : PropertyBag) (ps : List PropertyBag)
        (hold : PropertyBag) (hs : List PropertyBag) (ws : List String)
        (m : LineMatch) (st' : PState),
        lineMatch txt = some m → m.isAbstract = true → m.hasEquals = false →
        processNode (.mk ind txt cs) ⟨parent :: ps, hold :: hs, ws⟩ =
          some st' →
        st'.parents = parent :: ps ∧
        ∃ hold', st'.abstracts = hold' :: hs ∧
          (dictLookup hold'.children
            (if pyStrip m.rawName = "" then toString parent.count
             else pyStrip m.rawName)).isSome = true) ∧
    (∀ (fuel : Nat) (st : HState) (r : Nat) (n : String),
        cacheFindP st.cCache (r, n) = none →
        (cachedContainsH fuel st r n).1 =
          containsFreshH st.heap fuel r n) ∧
    ((parseLinesC c5lines).map (fun r =>
        ((hbagAt r.1 1).map (fun h =>
           ((dictLookupN h.children "a").isSome,
            (dictLookupN h.children "b").isSome)),
         (hbagAt r.1 0).map (fun h =>
           ((dictLookupN h.children "a").isNone,
            (dictLookupN h.children "b").isNone)),
         ((childRefAt r.1 0 ["c"]).bind (hbagAt r.1)).map HBag.bases,
         r.2)) =
      some (some (true, true), some (true, true), some [2, 6], [])) := by
  refine ⟨?_, cachedContainsH_miss, by rw [c5parseC]; decide⟩
  intro ind txt cs parent ps hold hs ws m st' hm habs heq hrun
  exact abstract_step_holder ind txt cs parent ps hold hs ws m st'
    hm habs heq hrun

/-- Witness for C5: the abstract line `:: t` parsed at a root with an
empty holder stays out of the root's children and lands in the holder,
and on the two-bag heap a clean cache miss computes membership fresh. -/
theorem abstract_declaration_scope_witness :
    lineMatch ":: t" = some ⟨true, " t", false, none, []⟩ ∧
    processNode (.mk 0 ":: t" [])
        ⟨[.mk "root" "" [] []], [freshHolder], []⟩ =
      some ⟨[.mk "root" "" [] []],
            [.mk "abstract" "" [] [("t", .mk "t" "" [] [])]], []⟩ ∧
    (⟨[.mk "root" "" [] []],
      [.mk "abstract" "" [] [("t", .mk "t" "" [] [])]], []⟩ : PState).parents =
        [PropertyBag.mk "root" "" [] []] ∧
    (∃ hold',
      (⟨[.mk "root" "" [] []],
        [.mk "abstract" "" [] [("t", .mk "t" "" [] [])]], []⟩ :
          PState).abstracts = hold' :: [] ∧
      (dictLookup hold'.children
        (if pyStrip " t" = ""
         then toString (PropertyBag.mk "root" "" [] []).count
         else pyStrip " t")).isSome = true) ∧
    cacheFindP wst.cCache (1, "t") = none ∧
    (cachedContainsH 3 wst 1 "t").1 = containsFreshH wst.heap 3 1 "t" :=
  ⟨rfl, rfl,
   (abstract_declaration_scope.1 0 ":: t" [] (.mk "root" "" [] []) []
     freshHolder [] [] ⟨true, " t", false, none, []⟩
     ⟨[.mk "root" "" [] []],
      [.mk "abstract" "" [] [("t", .mk "t" "" [] [])]], []⟩
     rfl rfl rfl rfl).1,
   (abstract_declaration_scope.1 0 ":: t" [] (.mk "root" "" [] []) []
     freshHolder [] [] ⟨true, " t", false, none, []⟩
     ⟨[.mk "root" "" [] []],
      [.mk "abstract" "" [] [("t", .mk "t" "" [] [])]], []⟩
     rfl rfl rfl rfl).2,
   rfl, abstract_declaration_scope.2.1 3 wst 1 "t" rfl⟩
